import Mathlib

/-!
# Skinned-mesh animation runtime (`assignment_3/model.cpp`, `model.h`, `mesh.h`)

A shallow embedding of the keyframe interpolators, the bone table and the
per-vertex weight assignment of `class Model`, with the properties of the
natural-language specification stated and settled against it.

Conventions of the embedding:

* C++ `float` / `double` values are exact rationals (`ℚ`): every statement is
  about the arithmetic the code writes down, without rounding.
* C arrays and `std::vector`s are `List`s read with a total accessor; the
  fixed-size per-vertex arrays `int BoneIDs[4]`, `float Weights[4]` are
  functions on `Fin 4`.
* `std::map<std::string, BoneInfo>` is an association list in insertion order,
  only ever read by key.
* `int` values (`boneCounter`, bone ids) are `Int`; vertex arrays and bone
  tables are taken to hold fewer than `2^31` entries, so no `int` conversion
  in the code wraps.
-/

namespace Model

/-! ## Data model -/

/-- Three-component vector: `glm::vec3` and `aiVector3D`. -/
structure Vec3 where
  x : ℚ
  y : ℚ
  z : ℚ
deriving DecidableEq, Repr

/-- Quaternion: `glm::quat` and `aiQuaternion`. -/
structure Quat where
  w : ℚ
  x : ℚ
  y : ℚ
  z : ℚ
deriving DecidableEq, Repr

/-- Position and scaling keyframe: `aiVectorKey`. -/
structure aiVectorKey where
  mTime : ℚ
  mValue : Vec3
deriving DecidableEq, Repr

/-- Rotation keyframe: `aiQuatKey`. -/
structure aiQuatKey where
  mTime : ℚ
  mValue : Quat
deriving DecidableEq, Repr

/-- One animation channel: `aiNodeAnim`; the `mNum*Keys` counters are the
lengths of the three lists. -/
structure aiNodeAnim where
  mNodeName : String
  mPositionKeys : List aiVectorKey
  mRotationKeys : List aiQuatKey
  mScalingKeys : List aiVectorKey
deriving DecidableEq, Repr

/-- Array read `keys[i]` on a vector-key array. -/
def vectorKeyAt (keys : List aiVectorKey) (i : Nat) : aiVectorKey :=
  keys.getD i ⟨0, ⟨0, 0, 0⟩⟩

/-- Array read `keys[i]` on a quaternion-key array. -/
def quatKeyAt (keys : List aiQuatKey) (i : Nat) : aiQuatKey :=
  keys.getD i ⟨0, ⟨1, 0, 0, 0⟩⟩

/-- The operator `aiVector3D - aiVector3D`. -/
def Vec3.sub (a b : Vec3) : Vec3 := ⟨a.x - b.x, a.y - b.y, a.z - b.z⟩

/-- The function `glm::clamp(x, lo, hi)`, which is `min(max(x, lo), hi)`. -/
def clamp (x lo hi : ℚ) : ℚ := min (max x lo) hi

/-! ## Keyframe interpolation (`model.cpp` 318-416)

The three interpolators run the same scan, index arithmetic and factor
computation on their own key array; these pieces are written once, over the
timestamp accessor `mTime i` of the array and its length `numKeys`. -/

/-- The scan loop
`for (i = 0; i < numKeys - 1; i++) if (animationTime < keys[i + 1].mTime) { index = i; break; }`
with `remaining` iterations left at loop variable `i`.  When the loop runs out
the index variable still holds its initial value `0`. -/
def scanLoop (mTime : Nat → ℚ) (animationTime : ℚ) : Nat → Nat → Nat
  | 0, _ => 0
  | remaining + 1, i =>
    if animationTime < mTime (i + 1) then i
    else scanLoop mTime animationTime remaining (i + 1)

/-- The variable `positionIndex` / `rotationIndex` / `scaleIndex` after the scan. -/
def keyIndex (mTime : Nat → ℚ) (numKeys : Nat) (animationTime : ℚ) : Nat :=
  scanLoop mTime animationTime (numKeys - 1) 0

/-- The variable `nextPositionIndex` / `nextRotationIndex` / `nextScaleIndex`. -/
def nextKeyIndex (mTime : Nat → ℚ) (numKeys : Nat) (animationTime : ℚ) : Nat :=
  (keyIndex mTime numKeys animationTime + 1) % numKeys

/-- The variable `deltaTime`, after the guard `if (deltaTime <= 0.0f) deltaTime = 1.0f`. -/
def keyDeltaTime (mTime : Nat → ℚ) (numKeys : Nat) (animationTime : ℚ) : ℚ :=
  let deltaTime :=
    mTime (nextKeyIndex mTime numKeys animationTime) - mTime (keyIndex mTime numKeys animationTime)
  if deltaTime ≤ 0 then 1 else deltaTime

/-- The variable `factor`, after `glm::clamp(factor, 0.0f, 1.0f)`. -/
def keyFactor (mTime : Nat → ℚ) (numKeys : Nat) (animationTime : ℚ) : ℚ :=
  clamp ((animationTime - mTime (keyIndex mTime numKeys animationTime))
    / keyDeltaTime mTime numKeys animationTime) 0 1

/-- `Model::InterpolatePosition` (`model.cpp` 318-348). -/
def InterpolatePosition (animationTime : ℚ) (nodeAnim : Option aiNodeAnim) : Vec3 :=
  match nodeAnim with
  | none => ⟨0, 0, 0⟩
  | some na =>
    let keys := na.mPositionKeys
    let mTime := fun i => (vectorKeyAt keys i).mTime
    if keys.length = 0 then ⟨0, 0, 0⟩
    else if keys.length = 1 then
      ⟨(vectorKeyAt keys 0).mValue.x, (vectorKeyAt keys 0).mValue.y, (vectorKeyAt keys 0).mValue.z⟩
    else
      let positionIndex := keyIndex mTime keys.length animationTime
      let nextPositionIndex := nextKeyIndex mTime keys.length animationTime
      let factor := keyFactor mTime keys.length animationTime
      let start := (vectorKeyAt keys positionIndex).mValue
      let «end» := (vectorKeyAt keys nextPositionIndex).mValue
      let delta := Vec3.sub «end» start
      ⟨start.x + factor * delta.x, start.y + factor * delta.y, start.z + factor * delta.z⟩

/-- `Model::InterpolateRotation` (`model.cpp` 350-384).  The Assimp library
routines `aiQuaternion::Interpolate` and `aiQuaternion::Normalize` are not part
of the repository and are taken as parameters. -/
def InterpolateRotation (Interpolate : Quat → Quat → ℚ → Quat) (Normalize : Quat → Quat)
    (animationTime : ℚ) (nodeAnim : Option aiNodeAnim) : Quat :=
  match nodeAnim with
  | none => ⟨1, 0, 0, 0⟩
  | some na =>
    let keys := na.mRotationKeys
    let mTime := fun i => (quatKeyAt keys i).mTime
    if keys.length = 0 then ⟨1, 0, 0, 0⟩
    else if keys.length = 1 then
      ⟨(quatKeyAt keys 0).mValue.w, (quatKeyAt keys 0).mValue.x,
        (quatKeyAt keys 0).mValue.y, (quatKeyAt keys 0).mValue.z⟩
    else
      let rotationIndex := keyIndex mTime keys.length animationTime
      let nextRotationIndex := nextKeyIndex mTime keys.length animationTime
      let factor := keyFactor mTime keys.length animationTime
      let start := (quatKeyAt keys rotationIndex).mValue
      let «end» := (quatKeyAt keys nextRotationIndex).mValue
      let result := Normalize (Interpolate start «end» factor)
      ⟨result.w, result.x, result.y, result.z⟩

/-- `Model::InterpolateScale` (`model.cpp` 386-416). -/
def InterpolateScale (animationTime : ℚ) (nodeAnim : Option aiNodeAnim) : Vec3 :=
  match nodeAnim with
  | none => ⟨1, 1, 1⟩
  | some na =>
    let keys := na.mScalingKeys
    let mTime := fun i => (vectorKeyAt keys i).mTime
    if keys.length = 0 then ⟨1, 1, 1⟩
    else if keys.length = 1 then
      ⟨(vectorKeyAt keys 0).mValue.x, (vectorKeyAt keys 0).mValue.y, (vectorKeyAt keys 0).mValue.z⟩
    else
      let scaleIndex := keyIndex mTime keys.length animationTime
      let nextScaleIndex := nextKeyIndex mTime keys.length animationTime
      let factor := keyFactor mTime keys.length animationTime
      let start := (vectorKeyAt keys scaleIndex).mValue
      let «end» := (vectorKeyAt keys nextScaleIndex).mValue
      let delta := Vec3.sub «end» start
      ⟨start.x + factor * delta.x, start.y + factor * delta.y, start.z + factor * delta.z⟩

/-- Timestamp accessor of a vector-key array. -/
def vectorTimes (keys : List aiVectorKey) : Nat → ℚ := fun i => (vectorKeyAt keys i).mTime

/-- Timestamp accessor of a quaternion-key array. -/
def quatTimes (keys : List aiQuatKey) : Nat → ℚ := fun i => (quatKeyAt keys i).mTime

/-- Timestamps never decrease along the first `numKeys` keys (the data-model
invariant of a keyframe sequence). -/
def NonDecreasing (mTime : Nat → ℚ) (numKeys : Nat) : Prop :=
  ∀ i, i + 1 < numKeys → mTime i ≤ mTime (i + 1)

/-- Timestamps strictly increase along the first `numKeys` keys. -/
def StrictlyIncreasing (mTime : Nat → ℚ) (numKeys : Nat) : Prop :=
  ∀ i, i + 1 < numKeys → mTime i < mTime (i + 1)

/-- The point `start + factor * (end - start)`, component by component. -/
def lerp (start stop : Vec3) (factor : ℚ) : Vec3 :=
  ⟨start.x + factor * (stop.x - start.x), start.y + factor * (stop.y - start.y),
    start.z + factor * (stop.z - start.z)⟩

/-- A channel that carries `keys` as its position track. -/
def positionChannel (keys : List aiVectorKey) : aiNodeAnim := ⟨"bone", keys, [], []⟩

/-- A channel that carries `keys` as its scaling track. -/
def scaleChannel (keys : List aiVectorKey) : aiNodeAnim := ⟨"bone", [], [], keys⟩

/-- Example track: three keys at times 0, 5, 10 moving along the x axis. -/
def track3 : List aiVectorKey :=
  [⟨0, ⟨0, 0, 0⟩⟩, ⟨5, ⟨1, 0, 0⟩⟩, ⟨10, ⟨2, 0, 0⟩⟩]

/-- Example track: two keys that carry the same timestamp. -/
def trackDup : List aiVectorKey :=
  [⟨0, ⟨0, 0, 0⟩⟩, ⟨0, ⟨1, 0, 0⟩⟩]

/-- The track of the end-to-end scenario: `[(t=0,(0,0,0)), (t=10,(0,5,0))]`. -/
def track2 : List aiVectorKey :=
  [⟨0, ⟨0, 0, 0⟩⟩, ⟨10, ⟨0, 5, 0⟩⟩]

/-! ## Bone table and vertex weights (`model.cpp` 209-262, `model.h` 23-39, `mesh.h` 11-21) -/

/-- Four-by-four matrix `glm::mat4`; entry `(r, c)` is the source's `m[c][r]`
(column `c`, row `r`). -/
abbrev Mat4 := Matrix (Fin 4) (Fin 4) ℚ

/-- Row-major Assimp matrix `aiMatrix4x4` with its members `a1 .. d4`. -/
structure aiMatrix4x4 where
  a1 : ℚ
  a2 : ℚ
  a3 : ℚ
  a4 : ℚ
  b1 : ℚ
  b2 : ℚ
  b3 : ℚ
  b4 : ℚ
  c1 : ℚ
  c2 : ℚ
  c3 : ℚ
  c4 : ℚ
  d1 : ℚ
  d2 : ℚ
  d3 : ℚ
  d4 : ℚ
deriving DecidableEq, Repr

/-- `Model::ConvertMatrixToGLM` (`model.cpp` 264-271): `to[c][r]` receives the
member in row `r`, column `c` of `from`. -/
def ConvertMatrixToGLM («from» : aiMatrix4x4) : Mat4 :=
  Matrix.of ![![«from».a1, «from».a2, «from».a3, «from».a4],
              ![«from».b1, «from».b2, «from».b3, «from».b4],
              ![«from».c1, «from».c2, «from».c3, «from».c4],
              ![«from».d1, «from».d2, «from».d3, «from».d4]]

/-- The constant `MAX_BONE_INFLUENCE` (`mesh.h` 11). -/
abbrev MAX_BONE_INFLUENCE : Nat := 4

/-- Two-component vector `glm::vec2`. -/
structure Vec2 where
  x : ℚ
  y : ℚ
deriving DecidableEq, Repr

/-- `struct Vertex` (`mesh.h` 13-21). -/
structure Vertex where
  Position : Vec3
  Normal : Vec3
  TexCoords : Vec2
  BoneIDs : Fin 4 → Int
  Weights : Fin 4 → ℚ
deriving DecidableEq

/-- `struct BoneInfo` (`model.h` 23-26). -/
structure BoneInfo where
  id : Int
  offset : Mat4
deriving DecidableEq

/-- One entry of a bone's weight array: `aiVertexWeight`. -/
structure aiVertexWeight where
  mVertexId : Nat
  mWeight : ℚ
deriving DecidableEq, Repr

/-- A bone of a mesh: `aiBone`; `mNumWeights` is the length of `mWeights`. -/
structure aiBone where
  mName : String
  mOffsetMatrix : aiMatrix4x4
  mWeights : List aiVertexWeight
deriving DecidableEq, Repr

/-- The part of `aiMesh` read by the bone extraction: its bone array. -/
structure aiMesh where
  mBones : List aiBone
deriving DecidableEq, Repr

/-- The data members of `class Model` that bone extraction reads and writes
(`model.h` 33-34): the bone table and the bone counter. -/
structure BoneState where
  boneInfoMap : List (String × BoneInfo)
  boneCounter : Int
deriving DecidableEq

/-- A freshly constructed model: empty bone table, `boneCounter = 0`. -/
def BoneState.initial : BoneState := ⟨[], 0⟩

/-- The lookup `boneInfoMap.find(boneName)`; `none` stands for `end()`. -/
def findBone (boneInfoMap : List (String × BoneInfo)) (boneName : String) : Option BoneInfo :=
  (boneInfoMap.find? (fun e => e.1 == boneName)).map (fun e => e.2)

/-- Bone registration, the head of the bone loop of
`Model::ExtractBoneWeightForVertices` (`model.cpp` 211-224): returns the
updated members and the local `boneID`. -/
def registerBone (st : BoneState) (bone : aiBone) : BoneState × Int :=
  match findBone st.boneInfoMap bone.mName with
  | none =>
    let newBoneInfo : BoneInfo := ⟨st.boneCounter, ConvertMatrixToGLM bone.mOffsetMatrix⟩
    (⟨st.boneInfoMap ++ [(bone.mName, newBoneInfo)], st.boneCounter + 1⟩, st.boneCounter)
  | some info => (st, info.id)

/-- The slot loop `for (i = 0; i < MAX_BONE_INFLUENCE; ++i)` with its `break`
(`model.cpp` 235-241), over the slot indices still to visit. -/
def assignSlots (boneID : Int) (weight : ℚ) (v : Vertex) : List (Fin 4) → Vertex
  | [] => v
  | i :: rest =>
    if v.BoneIDs i < 0 then
      { v with Weights := Function.update v.Weights i weight
               BoneIDs := Function.update v.BoneIDs i boneID }
    else assignSlots boneID weight v rest

/-- One iteration of the weight loop (`model.cpp` 230-241): a single
assignment of `(boneID, weight)` to vertex `mVertexId`. -/
def assignWeight (vertices : List Vertex) (boneID : Int) (w : aiVertexWeight) : List Vertex :=
  if h : vertices.length ≤ w.mVertexId then vertices
  else
    vertices.set w.mVertexId
      (assignSlots boneID w.mWeight (vertices.get ⟨w.mVertexId, Nat.lt_of_not_le h⟩)
        (List.finRange MAX_BONE_INFLUENCE))

/-- A run of assignments in encounter order, each with the bone id in force. -/
def assignAll (vertices : List Vertex) (assignments : List (Int × aiVertexWeight)) : List Vertex :=
  assignments.foldl (fun vs a => assignWeight vs a.1 a.2) vertices

/-- One iteration of the bone loop (`model.cpp` 210-243): registration followed
by the weight loop of that bone. -/
def processBone (s : BoneState × List Vertex) (bone : aiBone) : BoneState × List Vertex :=
  let r := registerBone s.1 bone
  (r.1, assignAll s.2 (bone.mWeights.map (fun w => (r.2, w))))

/-- The accumulation loop of the normalization pass (`model.cpp` 247-252). -/
def totalWeight (vertex : Vertex) : ℚ :=
  (List.finRange MAX_BONE_INFLUENCE).foldl
    (fun total i => if vertex.BoneIDs i ≥ 0 then total + vertex.Weights i else total) 0

/-- The body of the normalization pass for one vertex (`model.cpp` 247-260). -/
def normalizeVertex (vertex : Vertex) : Vertex :=
  let total := totalWeight vertex
  if total > 0 then
    { vertex with
      Weights := (List.finRange MAX_BONE_INFLUENCE).foldl
        (fun ws i => if vertex.BoneIDs i ≥ 0 then Function.update ws i (ws i / total) else ws)
        vertex.Weights }
  else vertex

/-- The bone loop of `Model::ExtractBoneWeightForVertices` (`model.cpp` 210-243). -/
def assignPhase (st : BoneState) (vertices : List Vertex) (mesh : aiMesh) :
    BoneState × List Vertex :=
  mesh.mBones.foldl processBone (st, vertices)

/-- `Model::ExtractBoneWeightForVertices` (`model.cpp` 209-262): the bone loop
followed by the normalization pass; the `scene` argument is not used. -/
def ExtractBoneWeightForVertices (st : BoneState) (vertices : List Vertex) (mesh : aiMesh) :
    BoneState × List Vertex :=
  let s := assignPhase st vertices mesh
  (s.1, s.2.map normalizeVertex)

/-- Registration of a run of bones, keeping only the model members. -/
def registerAll (st : BoneState) (bones : List aiBone) : BoneState :=
  bones.foldl (fun s b => (registerBone s b).1) st

/-- The sum of the weights held in populated slots (`BoneIDs[i] >= 0`). -/
def populatedSum (v : Vertex) : ℚ :=
  ∑ i : Fin 4, if v.BoneIDs i ≥ 0 then v.Weights i else 0

/-- A vertex none of whose slots is populated. -/
def Unpopulated (v : Vertex) : Prop := ∀ i, v.BoneIDs i < 0

/-- A vertex with all four slots populated. -/
def Full (v : Vertex) : Prop := ∀ i, 0 ≤ v.BoneIDs i

/-- Vertex with the given slot contents and zeroed geometry. -/
def vertexOf (ids : Fin 4 → Int) (ws : Fin 4 → ℚ) : Vertex :=
  ⟨⟨0, 0, 0⟩, ⟨0, 0, 0⟩, ⟨0, 0⟩, ids, ws⟩

/-- The assignments of a run that target vertex `i`, in encounter order. -/
def assignmentsTo (i : Nat) (assignments : List (Int × aiVertexWeight)) :
    List (Int × aiVertexWeight) :=
  assignments.filter (fun a => decide (a.2.mVertexId = i))

/-- The assignments the bone loop performs on a bone array, in encounter order,
each paired with the `boneID` that registration yields for its bone. -/
def boneAssignments (st : BoneState) : List aiBone → List (Int × aiVertexWeight)
  | [] => []
  | bone :: rest =>
    (bone.mWeights.map (fun w => ((registerBone st bone).2, w)))
      ++ boneAssignments (registerBone st bone).1 rest

/-- The bone counter and every stored id are non-negative. -/
def NonNegIds (st : BoneState) : Prop :=
  0 ≤ st.boneCounter ∧ ∀ e ∈ st.boneInfoMap, 0 ≤ e.2.id

/-- Example data: the identity offset matrix. -/
def identityOffset : aiMatrix4x4 := ⟨1, 0, 0, 0, 0, 1, 0, 0, 0, 0, 1, 0, 0, 0, 0, 1⟩

/-- Example data: a vertex with four unused slots (sentinel id `-1`, weight 0). -/
def vertexUnused : Vertex := vertexOf ![-1, -1, -1, -1] ![0, 0, 0, 0]

/-- Example data: one bone that gives vertex 0 the weight 0. -/
def meshZeroWeight : aiMesh := ⟨[⟨"boneA", identityOffset, [⟨0, 0⟩]⟩]⟩

/-- Example data: the scenario `(boneA, 0.6), (boneB, 0.6)` on vertex 0. -/
def meshAB : aiMesh :=
  ⟨[⟨"boneA", identityOffset, [⟨0, 3 / 5⟩]⟩, ⟨"boneB", identityOffset, [⟨0, 3 / 5⟩]⟩]⟩

/-- Example data: vertex 0 of `meshAB` after the bone loop. -/
def vertexAB : Vertex := vertexOf ![0, 1, -1, -1] ![3 / 5, 3 / 5, 0, 0]

/-- Example data: vertex 0 of `meshZeroWeight` after the bone loop. -/
def vertexZeroWeight : Vertex := vertexOf ![0, -1, -1, -1] ![0, 0, 0, 0]

/-- Example data: a vertex whose four slots are populated. -/
def vertexFull : Vertex := vertexOf ![0, 1, 2, 3] ![1 / 4, 1 / 4, 1 / 4, 1 / 4]

/-- Example data: five bones that each give vertex 0 the weight `1/5`. -/
def meshFive : aiMesh :=
  ⟨[⟨"boneA", identityOffset, [⟨0, 1 / 5⟩]⟩, ⟨"boneB", identityOffset, [⟨0, 1 / 5⟩]⟩,
    ⟨"boneC", identityOffset, [⟨0, 1 / 5⟩]⟩, ⟨"boneD", identityOffset, [⟨0, 1 / 5⟩]⟩,
    ⟨"boneE", identityOffset, [⟨0, 1 / 5⟩]⟩]⟩

/-- The dense-id invariant of the bone table: the counter equals the number of
entries, the entry at insertion position `j` carries id `j`, and no name occurs
twice. -/
def DenseTable (st : BoneState) : Prop :=
  st.boneCounter = st.boneInfoMap.length ∧
  (∀ (j : Nat) (e : String × BoneInfo), st.boneInfoMap[j]? = some e → e.2.id = (j : Int)) ∧
  (st.boneInfoMap.map Prod.fst).Nodup

/-- Example data: an offset matrix other than the identity. -/
def scaledOffset : aiMatrix4x4 := ⟨2, 0, 0, 0, 0, 2, 0, 0, 0, 0, 2, 0, 0, 0, 0, 1⟩

/-- Example data: a bone named `boneA` with the identity offset. -/
def boneA : aiBone := ⟨"boneA", identityOffset, []⟩

/-- Example data: a second bone named `boneA`, with another offset and a weight. -/
def boneAagain : aiBone := ⟨"boneA", scaledOffset, [⟨0, 1⟩]⟩

/-- Example data: a bone named `boneB`. -/
def boneB : aiBone := ⟨"boneB", scaledOffset, []⟩

/-- Example data: a bone named `boneC`. -/
def boneC : aiBone := ⟨"boneC", identityOffset, []⟩

/-- The names stored in the bone table, in insertion order. -/
def tableNames (st : BoneState) : List String := st.boneInfoMap.map Prod.fst

/-! ## Node hierarchy, animation clip and pose evaluation (`model.cpp` 3-64, 273-316)

Members of `class Model` that only rendering uses (`meshes`, `textures_loaded`,
`directory`) are left out.  Routines of the glm and Assimp libraries are not
part of the repository; the pose code takes them as a bundle of parameters. -/

/-- A node of the scene graph: `aiNode` with its name, bind transform, mesh
indices and children. -/
inductive aiNode where
  | mk (mName : String) (mTransformation : aiMatrix4x4) (mMeshes : List Nat)
      (mChildren : List aiNode)

/-- The member `aiNode::mName`. -/
def aiNode.mName : aiNode → String
  | .mk n _ _ _ => n

/-- The member `aiNode::mTransformation`. -/
def aiNode.mTransformation : aiNode → aiMatrix4x4
  | .mk _ t _ _ => t

/-- The member `aiNode::mMeshes`. -/
def aiNode.mMeshes : aiNode → List Nat
  | .mk _ _ m _ => m

/-- The member `aiNode::mChildren`. -/
def aiNode.mChildren : aiNode → List aiNode
  | .mk _ _ _ c => c

/-- An animation clip: `aiAnimation`; `mNumChannels` is the length of `mChannels`. -/
structure aiAnimation where
  mDuration : ℚ
  mTicksPerSecond : ℚ
  mChannels : List aiNodeAnim

/-- The imported scene: `aiScene`.  `mFlagsIncomplete` is the test
`mFlags & AI_SCENE_FLAGS_INCOMPLETE`; `mRootNode` and the entries of
`mAnimations` are pointers that may be null. -/
structure aiScene where
  mFlagsIncomplete : Bool
  mRootNode : Option aiNode
  mMeshes : List aiMesh
  mAnimations : List (Option aiAnimation)

/-- The library routines the pose code calls: Assimp's
`aiQuaternion::Interpolate` and `aiQuaternion::Normalize`, and glm's
`translate(mat4(1), v)`, `mat4_cast(q)`, `scale(mat4(1), v)` and `inverse(m)`. -/
structure Library where
  Interpolate : Quat → Quat → ℚ → Quat
  Normalize : Quat → Quat
  translate : Vec3 → Mat4
  mat4_cast : Quat → Mat4
  scale : Vec3 → Mat4
  inverse : Mat4 → Mat4

/-- The data members of `class Model` that animation reads and writes
(`model.h` 33-39): the bone members, `globalInverseTransform`,
`boneTransforms` and `animationTime`. -/
structure ModelState extends BoneState where
  globalInverseTransform : Mat4
  boneTransforms : List Mat4
  animationTime : ℚ

/-- `Model::FindNodeAnim` (`model.cpp` 308-316): the first channel whose node
name equals `nodeName`, `none` for `nullptr`. -/
def FindNodeAnim (animation : aiAnimation) (nodeName : String) : Option aiNodeAnim :=
  animation.mChannels.find? (fun nodeAnim => nodeAnim.mNodeName == nodeName)

/-- The variable `nodeTransformation` of `Model::ReadNodeHierarchy`
(`model.cpp` 276-291): the local transform of a node at a time. -/
def nodeTransformation (lib : Library) (animation : aiAnimation) (animationTime : ℚ)
    (node : aiNode) : Mat4 :=
  match FindNodeAnim animation node.mName with
  | none => ConvertMatrixToGLM node.mTransformation
  | some nodeAnim =>
    let position := InterpolatePosition animationTime (some nodeAnim)
    let translationMatrix := lib.translate position
    let rotation := InterpolateRotation lib.Interpolate lib.Normalize animationTime (some nodeAnim)
    let rotationMatrix := lib.mat4_cast rotation
    let scale := InterpolateScale animationTime (some nodeAnim)
    let scaleMatrix := lib.scale scale
    translationMatrix * rotationMatrix * scaleMatrix

/-- The bone write of `Model::ReadNodeHierarchy` (`model.cpp` 295-301). -/
def writeBone (st : ModelState) (nodeName : String) (globalTransformation : Mat4)
    (boneTransforms : List Mat4) : List Mat4 :=
  match findBone st.boneInfoMap nodeName with
  | none => boneTransforms
  | some info =>
    let index := info.id
    if 0 ≤ index ∧ index.toNat < boneTransforms.length then
      boneTransforms.set index.toNat
        (st.globalInverseTransform * globalTransformation * info.offset)
    else boneTransforms

mutual
/-- `Model::ReadNodeHierarchy` (`model.cpp` 273-306), as a function from the
contents of `boneTransforms` before the call to its contents after it; the
other members are only read. -/
def ReadNodeHierarchy (lib : Library) (st : ModelState) (animation : aiAnimation)
    (animationTime : ℚ) : aiNode → Mat4 → List Mat4 → List Mat4
  | .mk nodeName tr meshes children, parentTransform, boneTransforms =>
    let globalTransformation :=
      parentTransform * nodeTransformation lib animation animationTime
        (.mk nodeName tr meshes children)
    ReadNodeChildren lib st animation animationTime children globalTransformation
      (writeBone st nodeName globalTransformation boneTransforms)
/-- The child loop of `Model::ReadNodeHierarchy` (`model.cpp` 303-305). -/
def ReadNodeChildren (lib : Library) (st : ModelState) (animation : aiAnimation)
    (animationTime : ℚ) : List aiNode → Mat4 → List Mat4 → List Mat4
  | [], _, boneTransforms => boneTransforms
  | child :: rest, globalTransformation, boneTransforms =>
    ReadNodeChildren lib st animation animationTime rest globalTransformation
      (ReadNodeHierarchy lib st animation animationTime child globalTransformation boneTransforms)
end

/-- The C function `fmod(x, y)`: `x - n * y` with `n` the quotient `x / y`
truncated toward zero.  For `y = 0` the C function yields NaN, which has no
rational counterpart; statements about `fmod` are made for `y ≠ 0`. -/
def fmod (x y : ℚ) : ℚ :=
  x - y * (((if 0 ≤ x / y then ⌊x / y⌋ else ⌈x / y⌉) : ℤ) : ℚ)

/-- `Model::UpdateAnimation` (`model.cpp` 17-29) on the members, with the
`scene` member as an argument.  The result `none` stands for the null
dereference of `ReadNodeHierarchy` on a scene without root node. -/
def UpdateAnimation (lib : Library) (scene : Option aiScene) (st : ModelState)
    (deltaTime : ℚ) : Option ModelState :=
  match scene with
  | none => some st
  | some sc =>
    match sc.mAnimations with
    | [] => some st
    | none :: _ => some st
    | some animation :: _ =>
      let ticksPerSecond :=
        if animation.mTicksPerSecond ≠ 0 then animation.mTicksPerSecond else 25
      let animationTime := st.animationTime + deltaTime * ticksPerSecond
      let animationTime := fmod animationTime animation.mDuration
      match sc.mRootNode with
      | none => none
      | some root =>
        some { st with
          animationTime := animationTime
          boneTransforms :=
            ReadNodeHierarchy lib st animation animationTime root 1 st.boneTransforms }

/-- A run of `UpdateAnimation` calls, one per frame, with the given delta times. -/
def UpdateAnimations (lib : Library) (scene : Option aiScene) :
    ModelState → List ℚ → Option ModelState
  | st, [] => some st
  | st, deltaTime :: rest =>
    match UpdateAnimation lib scene st deltaTime with
    | none => none
    | some st' => UpdateAnimations lib scene st' rest

/-- The effect of `Model::processMesh` (`model.cpp` 66-122) on the bone members
and the vertex array it hands to the mesh.  `buildVertices` stands for the
vertex loop (lines 71-97), which reads geometry only. -/
def processMesh (buildVertices : aiMesh → List Vertex) (st : BoneState) (mesh : aiMesh) :
    BoneState × List Vertex :=
  ExtractBoneWeightForVertices st (buildVertices mesh) mesh

mutual
/-- `Model::processNode` (`model.cpp` 56-64) on the bone members: the meshes of
the node in order, then the children in order.  Mesh indices are valid by the
scene invariant of the importer. -/
def processNode (buildVertices : aiMesh → List Vertex) (scene : aiScene) :
    aiNode → BoneState → BoneState
  | .mk _ _ meshes children, st =>
    processChildren buildVertices scene children
      (meshes.foldl
        (fun s i => (processMesh buildVertices s (scene.mMeshes.getD i ⟨[]⟩)).1) st)
/-- The child loop of `Model::processNode` (`model.cpp` 61-63). -/
def processChildren (buildVertices : aiMesh → List Vertex) (scene : aiScene) :
    List aiNode → BoneState → BoneState
  | [], st => st
  | child :: rest, st =>
    processChildren buildVertices scene rest (processNode buildVertices scene child st)
end

/-- `Model::loadModel` (`model.cpp` 35-54) on the members, given the scene that
`importer.ReadFile` returned. -/
def loadModel (lib : Library) (buildVertices : aiMesh → List Vertex)
    (scene : Option aiScene) (st : ModelState) : ModelState :=
  match scene with
  | none => st
  | some sc =>
    if sc.mFlagsIncomplete then st
    else
      match sc.mRootNode with
      | none => st
      | some root =>
        let globalInverseTransform := lib.inverse (ConvertMatrixToGLM root.mTransformation)
        { st with
          globalInverseTransform := globalInverseTransform
          toBoneState := processNode buildVertices sc root st.toBoneState }

/-- The call `v.resize(n, x)` of `std::vector`. -/
def resize (v : List Mat4) (n : Nat) (x : Mat4) : List Mat4 :=
  v.take n ++ List.replicate (n - v.length) x

set_option linter.dupNamespace false in
/-- The constructor `Model::Model` (`model.cpp` 3-10) on the members.  The
members start as declared in `model.h` (empty table, `boneCounter = 0`, empty
`boneTransforms`, `animationTime = 0`); `uninitialized` is the value of the
default-constructed `globalInverseTransform`. -/
def Model (lib : Library) (buildVertices : aiMesh → List Vertex) (uninitialized : Mat4)
    (scene : Option aiScene) : ModelState :=
  let st := loadModel lib buildVertices scene ⟨BoneState.initial, uninitialized, [], 0⟩
  { st with
    boneTransforms :=
      (List.range 100).foldl (fun bt i => bt.set i 1) (resize st.boneTransforms 100 1) }

mutual
/-- The names of the nodes of a hierarchy, in traversal order. -/
def nodeNames : aiNode → List String
  | .mk nodeName _ _ children => nodeName :: childrenNames children
/-- The names of the nodes below a list of children, in traversal order. -/
def childrenNames : List aiNode → List String
  | [] => []
  | child :: rest => nodeNames child ++ childrenNames rest
end

/-- The relation `PathFrom n path`: `path` starts at `n` and each further node
is a child of the one before it. -/
inductive PathFrom : aiNode → List aiNode → Prop
  | here (n : aiNode) : PathFrom n [n]
  | step (n c : aiNode) (path : List aiNode) :
      c ∈ n.mChildren → PathFrom c path → PathFrom n (n :: path)

/-- The pose entry one node contributes when the pose array has `len` entries:
nothing, or one pair of an index and a matrix. -/
def boneWrite (st : ModelState) (nodeName : String) (globalTransformation : Mat4) (len : Nat) :
    List (Nat × Mat4) :=
  match findBone st.boneInfoMap nodeName with
  | none => []
  | some info =>
    if 0 ≤ info.id ∧ info.id.toNat < len then
      [(info.id.toNat, st.globalInverseTransform * globalTransformation * info.offset)]
    else []

mutual
/-- The pose entries a traversal of the hierarchy contributes, in the order
the traversal makes them. -/
def poseWrites (lib : Library) (st : ModelState) (animation : aiAnimation) (animationTime : ℚ)
    (len : Nat) : aiNode → Mat4 → List (Nat × Mat4)
  | .mk nodeName tr meshes children, parentTransform =>
    boneWrite st nodeName
        (parentTransform * nodeTransformation lib animation animationTime
          (.mk nodeName tr meshes children)) len
      ++ childrenWrites lib st animation animationTime len children
        (parentTransform * nodeTransformation lib animation animationTime
          (.mk nodeName tr meshes children))
/-- The pose entries the traversal of a list of children contributes. -/
def childrenWrites (lib : Library) (st : ModelState) (animation : aiAnimation)
    (animationTime : ℚ) (len : Nat) : List aiNode → Mat4 → List (Nat × Mat4)
  | [], _ => []
  | child :: rest, globalTransformation =>
    poseWrites lib st animation animationTime len child globalTransformation
      ++ childrenWrites lib st animation animationTime len rest globalTransformation
end

/-- Writing a run of entries into an array, in order. -/
def applyWrites (ws : List (Nat × Mat4)) (bt : List Mat4) : List Mat4 :=
  ws.foldl (fun b w => b.set w.1 w.2) bt

/-- The matrix the last entry for index `j` in a run carries, if any. -/
def lastWrite : List (Nat × Mat4) → Nat → Option Mat4
  | [], _ => none
  | w :: rest, j => (lastWrite rest j).or (if w.1 = j then some w.2 else none)

/-- The squared length `w^2 + x^2 + y^2 + z^2` of a quaternion. -/
def normSq (q : Quat) : ℚ := q.w ^ 2 + q.x ^ 2 + q.y ^ 2 + q.z ^ 2

/-- Example data: a library instance.  `translate`, `scale`, `mat4_cast` and
`inverse` are glm's formulas; `Interpolate` is the linear branch of Assimp's
routine and `Normalize` leaves its argument as it is (the exact routines need
square roots and trigonometric functions). -/
def exampleLibrary : Library where
  Interpolate := fun a b f =>
    ⟨(1 - f) * a.w + f * b.w, (1 - f) * a.x + f * b.x,
      (1 - f) * a.y + f * b.y, (1 - f) * a.z + f * b.z⟩
  Normalize := fun q => q
  translate := fun v =>
    Matrix.of ![![1, 0, 0, v.x], ![0, 1, 0, v.y], ![0, 0, 1, v.z], ![0, 0, 0, 1]]
  mat4_cast := fun q =>
    Matrix.of
      ![![1 - 2 * (q.y * q.y + q.z * q.z), 2 * (q.x * q.y - q.w * q.z),
          2 * (q.x * q.z + q.w * q.y), 0],
        ![2 * (q.x * q.y + q.w * q.z), 1 - 2 * (q.x * q.x + q.z * q.z),
          2 * (q.y * q.z - q.w * q.x), 0],
        ![2 * (q.x * q.z - q.w * q.y), 2 * (q.y * q.z + q.w * q.x),
          1 - 2 * (q.x * q.x + q.y * q.y), 0],
        ![0, 0, 0, 1]]
  scale := fun v =>
    Matrix.of ![![v.x, 0, 0, 0], ![0, v.y, 0, 0], ![0, 0, v.z, 0], ![0, 0, 0, 1]]
  inverse := fun m => (m.det)⁻¹ • m.adjugate

/-- Example data: the channel of the end-to-end scenario, a two-key position
track on the node `child` with no rotation and no scaling keys. -/
def childChannel : aiNodeAnim := ⟨"child", track2, [], []⟩

/-- Example data: a clip of duration 10 that leaves `mTicksPerSecond` at 0. -/
def exampleAnimation : aiAnimation := ⟨10, 0, [childChannel]⟩

/-- Example data: the node `child`, which carries mesh 0. -/
def childNode : aiNode := .mk "child" identityOffset [0] []

/-- Example data: the two-node skeleton `root → child`. -/
def rootNode : aiNode := .mk "root" identityOffset [] [childNode]

/-- Example data: a mesh whose only bone is `child`. -/
def childMesh : aiMesh := ⟨[⟨"child", identityOffset, [⟨0, 1⟩]⟩]⟩

/-- Example data: the scene of the end-to-end scenario. -/
def exampleScene : aiScene := ⟨false, some rootNode, [childMesh], [some exampleAnimation]⟩

/-- Example data: a scene without animation clips. -/
def staticScene : aiScene := ⟨false, some rootNode, [childMesh], []⟩

/-- Example data: the members of a model whose table holds the bone `child`. -/
def exampleState : ModelState :=
  ⟨⟨[("child", ⟨0, 1⟩)], 1⟩, 1, List.replicate 100 1, 0⟩

/-- Example data: a rotation track whose single key is not of unit length. -/
def longRotationChannel : aiNodeAnim := ⟨"bone", [], [⟨0, ⟨2, 0, 0, 0⟩⟩], []⟩

/-- Example data: a rotation track that turns from the identity at time 0 to
the unit quaternion `(7/25, 24/25, 0, 0)` at time 10. -/
def turnChannel : aiNodeAnim :=
  ⟨"bone", [], [⟨0, ⟨1, 0, 0, 0⟩⟩, ⟨10, ⟨7 / 25, 24 / 25, 0, 0⟩⟩], []⟩

/-- Example data: a channel on the node `child` that has no keys at all. -/
def emptyChannel : aiNodeAnim := ⟨"child", [], [], []⟩

/-- The product, in root-to-node order, of the local transforms of the nodes
on a path. -/
def pathTransform (lib : Library) (animation : aiAnimation) (animationTime : ℚ)
    (path : List aiNode) : Mat4 :=
  (path.map (nodeTransformation lib animation animationTime)).prod

/-- The pair `w` is the pose entry of the last node of some path that starts at
`node`, evaluated with `parent` as the transform above `node`. -/
def IsWriteOf (lib : Library) (st : ModelState) (animation : aiAnimation) (animationTime : ℚ)
    (len : Nat) (node : aiNode) (parent : Mat4) (w : Nat × Mat4) : Prop :=
  ∃ (path : List aiNode) (last : aiNode) (info : BoneInfo),
    PathFrom node path ∧ path.getLast? = some last ∧
    findBone st.boneInfoMap last.mName = some info ∧
    0 ≤ info.id ∧ info.id.toNat < len ∧
    w = (info.id.toNat,
      st.globalInverseTransform * (parent * pathTransform lib animation animationTime path)
        * info.offset)

/-- Example data: a pose array of 100 zero matrices. -/
def zeroPose : List Mat4 := List.replicate 100 0

/-! ## Properties of the scan -/

theorem scanLoop_found (mTime : Nat → ℚ) (t : ℚ) :
    ∀ (r i0 i : Nat), i0 ≤ i → i < i0 + r →
      (∀ j, i0 ≤ j → j < i → ¬ t < mTime (j + 1)) → t < mTime (i + 1) →
      scanLoop mTime t r i0 = i := by
  intro r
  induction r with
  | zero => intro i0 i h1 h2; omega
  | succ r ih =>
    intro i0 i h1 h2 hno hyes
    by_cases hc : t < mTime (i0 + 1)
    · have : i0 = i := by
        by_contra hne
        exact hno i0 le_rfl (by omega) hc
      subst this
      simp only [scanLoop, hc, if_true]
    · have hne : i0 ≠ i := by
        intro h; subst h; exact hc hyes
      simp only [scanLoop, hc, if_false]
      exact ih (i0 + 1) i (by omega) (by omega) (fun j hj1 hj2 => hno j (by omega) hj2) hyes

theorem scanLoop_none (mTime : Nat → ℚ) (t : ℚ) :
    ∀ (r i0 : Nat), (∀ j, i0 ≤ j → j < i0 + r → ¬ t < mTime (j + 1)) →
      scanLoop mTime t r i0 = 0 := by
  intro r
  induction r with
  | zero => intro i0 _; rfl
  | succ r ih =>
    intro i0 hno
    have hc : ¬ t < mTime (i0 + 1) := hno i0 le_rfl (by omega)
    simp only [scanLoop, hc, if_false]
    exact ih (i0 + 1) (fun j hj1 hj2 => hno j (by omega) (by omega))

theorem scanLoop_lt (mTime : Nat → ℚ) (t : ℚ) :
    ∀ (r i0 : Nat), scanLoop mTime t (r + 1) i0 < i0 + (r + 1) := by
  intro r
  induction r with
  | zero =>
    intro i0
    by_cases hc : t < mTime (i0 + 1) <;> simp [scanLoop, hc]
  | succ r ih =>
    intro i0
    by_cases hc : t < mTime (i0 + 1)
    · simp [scanLoop, hc]
    · have := ih (i0 + 1)
      rw [scanLoop]
      simp only [hc, if_false]
      omega

theorem keyIndex_succ_lt (mTime : Nat → ℚ) (n : Nat) (t : ℚ) (hn : 2 ≤ n) :
    keyIndex mTime n t + 1 < n := by
  obtain ⟨m, rfl⟩ : ∃ m, n = m + 2 := ⟨n - 2, by omega⟩
  have := scanLoop_lt mTime t m 0
  have e : m + 2 - 1 = m + 1 := by omega
  simp only [keyIndex, e]
  omega

theorem nextKeyIndex_eq (mTime : Nat → ℚ) (n : Nat) (t : ℚ) (hn : 2 ≤ n) :
    nextKeyIndex mTime n t = keyIndex mTime n t + 1 := by
  unfold nextKeyIndex
  exact Nat.mod_eq_of_lt (keyIndex_succ_lt mTime n t hn)

theorem keyIndex_found (mTime : Nat → ℚ) (n : Nat) (t : ℚ) (i : Nat) (hi : i + 1 < n)
    (hno : ∀ j, j < i → ¬ t < mTime (j + 1)) (hyes : t < mTime (i + 1)) :
    keyIndex mTime n t = i :=
  scanLoop_found mTime t (n - 1) 0 i (Nat.zero_le _) (by omega) (fun j _ hj => hno j hj) hyes

theorem keyIndex_none (mTime : Nat → ℚ) (n : Nat) (t : ℚ)
    (hno : ∀ j, j + 1 < n → ¬ t < mTime (j + 1)) :
    keyIndex mTime n t = 0 :=
  scanLoop_none mTime t (n - 1) 0 (fun j _ hj => hno j (by omega))

theorem nonDecreasing_le (mTime : Nat → ℚ) (n : Nat) (h : NonDecreasing mTime n) :
    ∀ (b a : Nat), a ≤ b → b < n → mTime a ≤ mTime b := by
  intro b
  induction b with
  | zero => intro a ha _; have : a = 0 := by omega
            subst this; exact le_rfl
  | succ b ih =>
    intro a ha hb
    rcases Nat.eq_or_lt_of_le ha with h1 | h1
    · subst h1; exact le_rfl
    · exact le_trans (ih a (by omega) (by omega)) (h b hb)

theorem strictlyIncreasing_nonDecreasing (mTime : Nat → ℚ) (n : Nat)
    (h : StrictlyIncreasing mTime n) : NonDecreasing mTime n :=
  fun i hi => le_of_lt (h i hi)

/-- Unfolding of `InterpolatePosition` on a track with at least two keys. -/
theorem InterpolatePosition_two (t : ℚ) (na : aiNodeAnim) (hn : 2 ≤ na.mPositionKeys.length) :
    InterpolatePosition t (some na) =
      lerp (vectorKeyAt na.mPositionKeys
              (keyIndex (vectorTimes na.mPositionKeys) na.mPositionKeys.length t)).mValue
           (vectorKeyAt na.mPositionKeys
              (nextKeyIndex (vectorTimes na.mPositionKeys) na.mPositionKeys.length t)).mValue
           (keyFactor (vectorTimes na.mPositionKeys) na.mPositionKeys.length t) := by
  have h0 : na.mPositionKeys.length ≠ 0 := by omega
  have h1 : na.mPositionKeys.length ≠ 1 := by omega
  simp only [InterpolatePosition, h0, h1, if_false, lerp, Vec3.sub]
  rfl

/-- Unfolding of `InterpolateScale` on a track with at least two keys. -/
theorem InterpolateScale_two (t : ℚ) (na : aiNodeAnim) (hn : 2 ≤ na.mScalingKeys.length) :
    InterpolateScale t (some na) =
      lerp (vectorKeyAt na.mScalingKeys
              (keyIndex (vectorTimes na.mScalingKeys) na.mScalingKeys.length t)).mValue
           (vectorKeyAt na.mScalingKeys
              (nextKeyIndex (vectorTimes na.mScalingKeys) na.mScalingKeys.length t)).mValue
           (keyFactor (vectorTimes na.mScalingKeys) na.mScalingKeys.length t) := by
  have h0 : na.mScalingKeys.length ≠ 0 := by omega
  have h1 : na.mScalingKeys.length ≠ 1 := by omega
  simp only [InterpolateScale, h0, h1, if_false, lerp, Vec3.sub]
  rfl

/-- Unfolding of `InterpolateRotation` on a track with at least two keys. -/
theorem InterpolateRotation_two (I : Quat → Quat → ℚ → Quat) (N : Quat → Quat) (t : ℚ)
    (na : aiNodeAnim) (hn : 2 ≤ na.mRotationKeys.length) :
    InterpolateRotation I N t (some na) =
      N (I (quatKeyAt na.mRotationKeys
              (keyIndex (quatTimes na.mRotationKeys) na.mRotationKeys.length t)).mValue
           (quatKeyAt na.mRotationKeys
              (nextKeyIndex (quatTimes na.mRotationKeys) na.mRotationKeys.length t)).mValue
           (keyFactor (quatTimes na.mRotationKeys) na.mRotationKeys.length t)) := by
  have h0 : na.mRotationKeys.length ≠ 0 := by omega
  have h1 : na.mRotationKeys.length ≠ 1 := by omega
  simp only [InterpolateRotation, h0, h1, if_false]
  rfl

theorem keyFactor_at_start (mTime : Nat → ℚ) (n : Nat) (t : ℚ)
    (h : mTime (keyIndex mTime n t) = t) : keyFactor mTime n t = 0 := by
  simp [keyFactor, h, clamp]

/-- Inside a segment with distinct, ordered end points the scan selects that
segment and the factor is the unclamped quotient. -/
theorem segment_inside (mTime : Nat → ℚ) (n : Nat) (hsorted : NonDecreasing mTime n)
    (i : Nat) (hi : i + 1 < n) (t : ℚ) (h1 : mTime i ≤ t) (h2 : t < mTime (i + 1)) :
    keyIndex mTime n t = i ∧ nextKeyIndex mTime n t = i + 1 ∧
      keyFactor mTime n t = (t - mTime i) / (mTime (i + 1) - mTime i) := by
  have hk : keyIndex mTime n t = i :=
    keyIndex_found mTime n t i hi
      (fun j hj => not_lt.mpr
        (le_trans (nonDecreasing_le mTime n hsorted i (j + 1) (by omega) (by omega)) h1)) h2
  have hnx : nextKeyIndex mTime n t = i + 1 := by
    rw [nextKeyIndex_eq mTime n t (by omega), hk]
  have hpos : 0 < mTime (i + 1) - mTime i := by linarith
  have hd : keyDeltaTime mTime n t = mTime (i + 1) - mTime i := by
    simp only [keyDeltaTime, hnx, hk]
    rw [if_neg (not_le.mpr hpos)]
  refine ⟨hk, hnx, ?_⟩
  have hq0 : 0 ≤ (t - mTime i) / (mTime (i + 1) - mTime i) :=
    div_nonneg (by linarith) hpos.le
  have hq1 : (t - mTime i) / (mTime (i + 1) - mTime i) ≤ 1 := by
    rw [div_le_one hpos]; linarith
  simp only [keyFactor, hk, hd, clamp]
  rw [max_eq_left hq0, min_eq_left hq1]

theorem track3_strictlyIncreasing : StrictlyIncreasing (vectorTimes track3) track3.length := by
  intro i hi
  have : i < 2 := by simp [track3] at hi; omega
  interval_cases i <;> norm_num [vectorTimes, vectorKeyAt, track3]

theorem track2_strictlyIncreasing : StrictlyIncreasing (vectorTimes track2) track2.length := by
  intro i hi
  have : i < 1 := by simp [track2] at hi; omega
  interval_cases i; norm_num [vectorTimes, vectorKeyAt, track2]

/-- C2, as stated, fails: on `track3` the time 7 lies in the final segment
(between the timestamps 5 and 10), the second bounding keyframe is the last
keyframe (index 2, not index 0), and the sample `(7/5, 0, 0)` lies between
`value[1]` and `value[2]`; interpolating toward `value[0]` with the same factor
would give a different point. -/
theorem final_segment_counterexample :
    vectorTimes track3 1 ≤ 7 ∧ (7 : ℚ) < vectorTimes track3 2 ∧
    keyIndex (vectorTimes track3) track3.length 7 = track3.length - 2 ∧
    nextKeyIndex (vectorTimes track3) track3.length 7 = 2 ∧
    InterpolatePosition 7 (some (positionChannel track3)) = ⟨7 / 5, 0, 0⟩ ∧
    InterpolatePosition 7 (some (positionChannel track3))
      = lerp (vectorKeyAt track3 1).mValue (vectorKeyAt track3 2).mValue (2 / 5) ∧
    InterpolatePosition 7 (some (positionChannel track3))
      ≠ lerp (vectorKeyAt track3 1).mValue (vectorKeyAt track3 0).mValue
          (keyFactor (vectorTimes track3) track3.length 7) := by
  refine ⟨by decide!, by decide!, by decide!, by decide!, by decide!, by decide!, by decide!⟩

/-- C2 (amended): for every track with at least two keyframes the second
bounding keyframe is `nextIndex = (i+1) mod count`, which always equals `i+1`
and stays below `count`, because the scan yields `i ≤ count-2`: the modulo never
wraps.  A query time landing in the final segment of a track with
non-decreasing timestamps is therefore interpolated from the last-but-one
keyframe toward the last keyframe, for position, scale and rotation alike. -/
theorem nextIndex_final_segment (I : Quat → Quat → ℚ → Quat) (N : Quat → Quat)
    (na : aiNodeAnim) (t : ℚ) :
    (∀ (mTime : Nat → ℚ) (n : Nat), 2 ≤ n →
      nextKeyIndex mTime n t = (keyIndex mTime n t + 1) % n ∧
      nextKeyIndex mTime n t = keyIndex mTime n t + 1 ∧
      nextKeyIndex mTime n t < n) ∧
    (∀ m, na.mPositionKeys.length = m + 2 →
      NonDecreasing (vectorTimes na.mPositionKeys) (m + 2) →
      vectorTimes na.mPositionKeys m ≤ t → t < vectorTimes na.mPositionKeys (m + 1) →
      InterpolatePosition t (some na) =
        lerp (vectorKeyAt na.mPositionKeys m).mValue (vectorKeyAt na.mPositionKeys (m + 1)).mValue
          ((t - vectorTimes na.mPositionKeys m)
            / (vectorTimes na.mPositionKeys (m + 1) - vectorTimes na.mPositionKeys m))) ∧
    (∀ m, na.mScalingKeys.length = m + 2 →
      NonDecreasing (vectorTimes na.mScalingKeys) (m + 2) →
      vectorTimes na.mScalingKeys m ≤ t → t < vectorTimes na.mScalingKeys (m + 1) →
      InterpolateScale t (some na) =
        lerp (vectorKeyAt na.mScalingKeys m).mValue (vectorKeyAt na.mScalingKeys (m + 1)).mValue
          ((t - vectorTimes na.mScalingKeys m)
            / (vectorTimes na.mScalingKeys (m + 1) - vectorTimes na.mScalingKeys m))) ∧
    (∀ m, na.mRotationKeys.length = m + 2 →
      NonDecreasing (quatTimes na.mRotationKeys) (m + 2) →
      quatTimes na.mRotationKeys m ≤ t → t < quatTimes na.mRotationKeys (m + 1) →
      InterpolateRotation I N t (some na) =
        N (I (quatKeyAt na.mRotationKeys m).mValue (quatKeyAt na.mRotationKeys (m + 1)).mValue
          ((t - quatTimes na.mRotationKeys m)
            / (quatTimes na.mRotationKeys (m + 1) - quatTimes na.mRotationKeys m)))) := by
  refine ⟨?_, ?_, ?_, ?_⟩
  · intro mTime n hn
    exact ⟨rfl, nextKeyIndex_eq mTime n t hn,
      by rw [nextKeyIndex_eq mTime n t hn]; exact keyIndex_succ_lt mTime n t hn⟩
  · intro m hlen hsorted h1 h2
    obtain ⟨hk, hnx, hf⟩ := segment_inside _ (m + 2) hsorted m (by omega) t h1 h2
    rw [InterpolatePosition_two _ _ (by omega), hlen, hk, hnx, hf]
  · intro m hlen hsorted h1 h2
    obtain ⟨hk, hnx, hf⟩ := segment_inside _ (m + 2) hsorted m (by omega) t h1 h2
    rw [InterpolateScale_two _ _ (by omega), hlen, hk, hnx, hf]
  · intro m hlen hsorted h1 h2
    obtain ⟨hk, hnx, hf⟩ := segment_inside _ (m + 2) hsorted m (by omega) t h1 h2
    rw [InterpolateRotation_two _ _ _ _ (by omega), hlen, hk, hnx, hf]

/-- Witness for C2 (amended): on `track3` at time 7 the next index is 2 and the
sample is the point two fifths of the way from `value[1]` to `value[2]`. -/
theorem nextIndex_final_segment_witness :
    nextKeyIndex (vectorTimes track3) 3 7 = keyIndex (vectorTimes track3) 3 7 + 1 ∧
    InterpolatePosition 7 (some (positionChannel track3)) =
      lerp (vectorKeyAt track3 1).mValue (vectorKeyAt track3 2).mValue
        ((7 - vectorTimes track3 1) / (vectorTimes track3 2 - vectorTimes track3 1)) :=
  ⟨((nextIndex_final_segment (fun a _ _ => a) id (positionChannel track3) 7).1
      (vectorTimes track3) 3 (by decide)).2.1,
    (nextIndex_final_segment (fun a _ _ => a) id (positionChannel track3) 7).2.1 1 rfl
      (strictlyIncreasing_nonDecreasing _ _ track3_strictlyIncreasing)
      (by norm_num [vectorTimes, vectorKeyAt, track3, positionChannel])
      (by norm_num [vectorTimes, vectorKeyAt, track3, positionChannel])⟩

/-! ## Choice of the segment (C3) -/

/-- C3, as stated, fails: on `track3` at time 10 no index `i` has
`time < timestamp[i+1]`, and the index used is 0 (first segment, keyframes 0
and 1), not `count-2 = 1`; the sample is `value[1]`. -/
theorem last_segment_counterexample :
    (∀ i, i + 1 < track3.length → ¬ (10 : ℚ) < vectorTimes track3 (i + 1)) ∧
    keyIndex (vectorTimes track3) track3.length 10 = 0 ∧
    keyIndex (vectorTimes track3) track3.length 10 ≠ track3.length - 2 ∧
    nextKeyIndex (vectorTimes track3) track3.length 10 ≠ track3.length - 1 ∧
    InterpolatePosition 10 (some (positionChannel track3)) = (vectorKeyAt track3 1).mValue := by
  refine ⟨?_, by decide!, by decide!, by decide!, by decide!⟩
  intro i hi
  have : i < 2 := by simp [track3] at hi; omega
  interval_cases i <;> norm_num [vectorTimes, vectorKeyAt, track3]

/-- C3 (amended): for every track with at least two keyframes, the segment index
`i` used for interpolation is the first index with `time < timestamp[i+1]`;
when no such index exists (time is at or past every later timestamp), the index
keeps its initial value 0 and the first segment (keyframes 0 and 1) is used. -/
theorem segment_index_choice (mTime : Nat → ℚ) (n : Nat) (hn : 2 ≤ n) (t : ℚ) :
    (∀ i, i + 1 < n → t < mTime (i + 1) → (∀ j, j < i → ¬ t < mTime (j + 1)) →
      keyIndex mTime n t = i ∧ nextKeyIndex mTime n t = i + 1) ∧
    ((∀ i, i + 1 < n → ¬ t < mTime (i + 1)) →
      keyIndex mTime n t = 0 ∧ nextKeyIndex mTime n t = 1) ∧
    (∀ na : aiNodeAnim, na.mPositionKeys.length = n → mTime = vectorTimes na.mPositionKeys →
      InterpolatePosition t (some na) =
        lerp (vectorKeyAt na.mPositionKeys (keyIndex mTime n t)).mValue
          (vectorKeyAt na.mPositionKeys (keyIndex mTime n t + 1)).mValue
          (keyFactor mTime n t)) := by
  refine ⟨?_, ?_, ?_⟩
  · intro i hi hyes hno
    have hk := keyIndex_found mTime n t i hi hno hyes
    exact ⟨hk, by rw [nextKeyIndex_eq mTime n t hn, hk]⟩
  · intro hno
    have hk := keyIndex_none mTime n t hno
    exact ⟨hk, by rw [nextKeyIndex_eq mTime n t hn, hk]⟩
  · intro na hlen hm
    subst hm
    subst hlen
    rw [InterpolatePosition_two _ _ hn, nextKeyIndex_eq _ _ _ hn]

/-- Witness for C3 (amended): on `track3`, time 7 selects index 1 (the first
index whose next timestamp exceeds it) and time 10 selects index 0. -/
theorem segment_index_choice_witness :
    (keyIndex (vectorTimes track3) 3 7 = 1 ∧ nextKeyIndex (vectorTimes track3) 3 7 = 1 + 1) ∧
    (keyIndex (vectorTimes track3) 3 10 = 0 ∧ nextKeyIndex (vectorTimes track3) 3 10 = 1) :=
  ⟨(segment_index_choice (vectorTimes track3) 3 (by decide) 7).1 1 (by decide)
      (by norm_num [vectorTimes, vectorKeyAt, track3])
      (by intro j hj
          have : j = 0 := by omega
          subst this
          norm_num [vectorTimes, vectorKeyAt, track3]),
    (segment_index_choice (vectorTimes track3) 3 (by decide) 10).2.1
      (by intro i hi
          have : i < 2 := by omega
          interval_cases i <;> norm_num [vectorTimes, vectorKeyAt, track3])⟩

/-! ## Linear interpolation inside a segment (C4) -/

/-- C4: on a position or scale track with at least two keyframes and
non-decreasing timestamps, at every time `t` with
`timestamp[i] < t < timestamp[i+1]` the sample is
`value[i] + f * (value[i+1] - value[i])` with
`f = (t - timestamp[i]) / (timestamp[i+1] - timestamp[i])`, which is the factor
the code computes; `f` lies in `[0,1]` and does not decrease as `t` grows inside
the segment. -/
theorem sample_between_keyframes (keys : List aiVectorKey) (pc sc : aiNodeAnim)
    (hp : pc.mPositionKeys = keys) (hs : sc.mScalingKeys = keys)
    (hsorted : NonDecreasing (vectorTimes keys) keys.length)
    (i : Nat) (hi : i + 1 < keys.length) (t : ℚ)
    (h1 : vectorTimes keys i < t) (h2 : t < vectorTimes keys (i + 1)) :
    InterpolatePosition t (some pc) =
      lerp (vectorKeyAt keys i).mValue (vectorKeyAt keys (i + 1)).mValue
        ((t - vectorTimes keys i) / (vectorTimes keys (i + 1) - vectorTimes keys i)) ∧
    InterpolateScale t (some sc) =
      lerp (vectorKeyAt keys i).mValue (vectorKeyAt keys (i + 1)).mValue
        ((t - vectorTimes keys i) / (vectorTimes keys (i + 1) - vectorTimes keys i)) ∧
    keyFactor (vectorTimes keys) keys.length t =
      (t - vectorTimes keys i) / (vectorTimes keys (i + 1) - vectorTimes keys i) ∧
    0 ≤ keyFactor (vectorTimes keys) keys.length t ∧
    keyFactor (vectorTimes keys) keys.length t ≤ 1 ∧
    (∀ t', t ≤ t' → t' < vectorTimes keys (i + 1) →
      keyFactor (vectorTimes keys) keys.length t ≤ keyFactor (vectorTimes keys) keys.length t') := by
  have hn : 2 ≤ keys.length := by omega
  obtain ⟨hk, hnx, hf⟩ := segment_inside _ keys.length hsorted i hi t h1.le h2
  have hpos : 0 < vectorTimes keys (i + 1) - vectorTimes keys i := by linarith
  refine ⟨?_, ?_, hf, ?_, ?_, ?_⟩
  · rw [InterpolatePosition_two _ _ (by rw [hp]; exact hn), hp, hk, hnx, hf]
  · rw [InterpolateScale_two _ _ (by rw [hs]; exact hn), hs, hk, hnx, hf]
  · rw [hf]; exact div_nonneg (by linarith) hpos.le
  · rw [hf, div_le_one hpos]; linarith
  · intro t' ht1 ht2
    obtain ⟨_, _, hf'⟩ := segment_inside _ keys.length hsorted i hi t' (by linarith) ht2
    rw [hf, hf']
    exact div_le_div_of_nonneg_right (by linarith) hpos.le

/-- Witness for C4: the track `[(t=0,(0,0,0)), (t=10,(0,5,0))]` sampled at
`t=5` gives `(0,2.5,0)` and at `t=2` gives `(0,1,0)`, and the factor grows from
`1/5` to `1/2` between the two times. -/
theorem sample_between_keyframes_witness :
    InterpolatePosition 5 (some (positionChannel track2)) = ⟨0, 5 / 2, 0⟩ ∧
    InterpolatePosition 2 (some (positionChannel track2)) = ⟨0, 1, 0⟩ ∧
    InterpolateScale 5 (some (scaleChannel track2)) = ⟨0, 5 / 2, 0⟩ ∧
    InterpolateScale 2 (some (scaleChannel track2)) = ⟨0, 1, 0⟩ ∧
    keyFactor (vectorTimes track2) track2.length 2 ≤ keyFactor (vectorTimes track2) track2.length 5 := by
  have h5 := sample_between_keyframes track2 (positionChannel track2) (scaleChannel track2) rfl rfl
    (strictlyIncreasing_nonDecreasing _ _ track2_strictlyIncreasing) 0 (by decide) 5
    (by norm_num [vectorTimes, vectorKeyAt, track2])
    (by norm_num [vectorTimes, vectorKeyAt, track2])
  have h2 := sample_between_keyframes track2 (positionChannel track2) (scaleChannel track2) rfl rfl
    (strictlyIncreasing_nonDecreasing _ _ track2_strictlyIncreasing) 0 (by decide) 2
    (by norm_num [vectorTimes, vectorKeyAt, track2])
    (by norm_num [vectorTimes, vectorKeyAt, track2])
  have e5 : lerp (vectorKeyAt track2 0).mValue (vectorKeyAt track2 (0 + 1)).mValue
      ((5 - vectorTimes track2 0) / (vectorTimes track2 (0 + 1) - vectorTimes track2 0))
      = ⟨0, 5 / 2, 0⟩ := by
    norm_num [lerp, vectorTimes, vectorKeyAt, track2]
  have e2 : lerp (vectorKeyAt track2 0).mValue (vectorKeyAt track2 (0 + 1)).mValue
      ((2 - vectorTimes track2 0) / (vectorTimes track2 (0 + 1) - vectorTimes track2 0))
      = ⟨0, 1, 0⟩ := by
    norm_num [lerp, vectorTimes, vectorKeyAt, track2]
  refine ⟨h5.1.trans e5, h2.1.trans e2, h5.2.1.trans e5, h2.2.1.trans e2, ?_⟩
  exact h2.2.2.2.2.2 5 (by norm_num) (by norm_num [vectorTimes, vectorKeyAt, track2])

/-! ## Slot assignment and normalization: auxiliary facts -/

theorem finRange_four : List.finRange MAX_BONE_INFLUENCE = [0, 1, 2, 3] := rfl

theorem totalWeight_eq_populatedSum (v : Vertex) : totalWeight v = populatedSum v := by
  unfold totalWeight populatedSum
  rw [finRange_four, Fin.sum_univ_four]
  simp only [List.foldl]
  by_cases h0 : v.BoneIDs 0 ≥ 0 <;> by_cases h1 : v.BoneIDs 1 ≥ 0 <;>
    by_cases h2 : v.BoneIDs 2 ≥ 0 <;> by_cases h3 : v.BoneIDs 3 ≥ 0 <;>
    simp only [h0, h1, h2, h3, if_true, if_false, zero_add, add_zero]

theorem assignSlots_full (b : Int) (w : ℚ) (v : Vertex) (h : Full v) :
    ∀ l : List (Fin 4), assignSlots b w v l = v := by
  intro l
  induction l with
  | nil => rfl
  | cons i rest ih =>
    have : ¬ v.BoneIDs i < 0 := not_lt.mpr (h i)
    simp only [assignSlots, this, if_false, ih]

theorem assignSlots_first (b : Int) (w : ℚ) (v : Vertex) (k : Fin 4)
    (hk : v.BoneIDs k < 0) (hmin : ∀ j, j < k → 0 ≤ v.BoneIDs j) :
    assignSlots b w v (List.finRange MAX_BONE_INFLUENCE) =
      { v with Weights := Function.update v.Weights k w
               BoneIDs := Function.update v.BoneIDs k b } := by
  have h0 : (0 : Fin 4) < k → ¬ v.BoneIDs 0 < 0 := fun h => not_lt.mpr (hmin 0 h)
  have h1 : (1 : Fin 4) < k → ¬ v.BoneIDs 1 < 0 := fun h => not_lt.mpr (hmin 1 h)
  have h2 : (2 : Fin 4) < k → ¬ v.BoneIDs 2 < 0 := fun h => not_lt.mpr (hmin 2 h)
  rw [finRange_four]
  fin_cases k
  · have hk0 : v.BoneIDs 0 < 0 := hk
    simp only [assignSlots]
    rw [if_pos hk0]
    rfl
  · have hk1 : v.BoneIDs 1 < 0 := hk
    simp only [assignSlots]
    rw [if_neg (h0 (by decide)), if_pos hk1]
    rfl
  · have hk2 : v.BoneIDs 2 < 0 := hk
    simp only [assignSlots]
    rw [if_neg (h0 (by decide)), if_neg (h1 (by decide)), if_pos hk2]
    rfl
  · have hk3 : v.BoneIDs 3 < 0 := hk
    simp only [assignSlots]
    rw [if_neg (h0 (by decide)), if_neg (h1 (by decide)), if_neg (h2 (by decide)), if_pos hk3]
    rfl

theorem exists_lowest_free (v : Vertex) (h : ∃ i, v.BoneIDs i < 0) :
    ∃ k, v.BoneIDs k < 0 ∧ ∀ j, j < k → 0 ≤ v.BoneIDs j := by
  by_cases c0 : v.BoneIDs 0 < 0
  · exact ⟨0, c0, fun j hj => absurd hj (by fin_cases j <;> decide)⟩
  by_cases c1 : v.BoneIDs 1 < 0
  · refine ⟨1, c1, fun j hj => ?_⟩
    fin_cases j
    · exact not_lt.mp c0
    all_goals exact absurd hj (by decide)
  by_cases c2 : v.BoneIDs 2 < 0
  · refine ⟨2, c2, fun j hj => ?_⟩
    fin_cases j
    · exact not_lt.mp c0
    · exact not_lt.mp c1
    all_goals exact absurd hj (by decide)
  · obtain ⟨i, hi⟩ := h
    have c3 : v.BoneIDs 3 < 0 := by
      fin_cases i
      · exact absurd hi c0
      · exact absurd hi c1
      · exact absurd hi c2
      · exact hi
    refine ⟨3, c3, fun j hj => ?_⟩
    fin_cases j
    · exact not_lt.mp c0
    · exact not_lt.mp c1
    · exact not_lt.mp c2
    · exact absurd hj (by decide)

theorem assignWeight_in_range (vertices : List Vertex) (b : Int) (w : aiVertexWeight) (v : Vertex)
    (hv : vertices[w.mVertexId]? = some v) :
    assignWeight vertices b w =
      vertices.set w.mVertexId (assignSlots b w.mWeight v (List.finRange MAX_BONE_INFLUENCE)) := by
  obtain ⟨hlt, hget⟩ := List.getElem?_eq_some_iff.mp hv
  unfold assignWeight
  rw [dif_neg (not_le.mpr hlt)]
  simp only [List.get_eq_getElem, hget]

theorem assignWeight_out_of_range (vertices : List Vertex) (b : Int) (w : aiVertexWeight)
    (h : vertices.length ≤ w.mVertexId) : assignWeight vertices b w = vertices := by
  unfold assignWeight
  rw [dif_pos h]

theorem assignWeight_length (vertices : List Vertex) (b : Int) (w : aiVertexWeight) :
    (assignWeight vertices b w).length = vertices.length := by
  unfold assignWeight
  split
  · rfl
  · simp

theorem assignWeight_other (vertices : List Vertex) (b : Int) (w : aiVertexWeight) (j : Nat)
    (hj : j ≠ w.mVertexId) : (assignWeight vertices b w)[j]? = vertices[j]? := by
  unfold assignWeight
  split
  · rfl
  · rw [List.getElem?_set_ne (Ne.symm hj)]

theorem normalizeVertex_of_nonpos (v : Vertex) (h : ¬ 0 < totalWeight v) :
    normalizeVertex v = v := by
  unfold normalizeVertex
  simp only [gt_iff_lt, h, if_false]

theorem normalizeVertex_of_pos (v : Vertex) (h : 0 < totalWeight v) :
    normalizeVertex v =
      { v with Weights := fun i =>
          if v.BoneIDs i ≥ 0 then v.Weights i / totalWeight v else v.Weights i } := by
  unfold normalizeVertex
  simp only [gt_iff_lt, h, if_true]
  congr 1
  rw [finRange_four]
  simp only [List.foldl]
  funext i
  by_cases h0 : v.BoneIDs 0 ≥ 0 <;> by_cases h1 : v.BoneIDs 1 ≥ 0 <;>
    by_cases h2 : v.BoneIDs 2 ≥ 0 <;> by_cases h3 : v.BoneIDs 3 ≥ 0 <;>
    simp only [h0, h1, h2, h3, if_true, if_false] <;>
    rcases (by decide : ∀ j : Fin 4, j = 0 ∨ j = 1 ∨ j = 2 ∨ j = 3) i with rfl | rfl | rfl | rfl <;>
    simp [Function.update, h0, h1, h2, h3]

theorem populatedSum_normalize (v : Vertex) (h : 0 < populatedSum v) :
    populatedSum (normalizeVertex v) = 1 := by
  have ht : 0 < totalWeight v := by rw [totalWeight_eq_populatedSum]; exact h
  rw [normalizeVertex_of_pos v ht, totalWeight_eq_populatedSum]
  have hne : populatedSum v ≠ 0 := ne_of_gt h
  have e : ∀ i : Fin 4,
      (if v.BoneIDs i ≥ 0 then
          (if v.BoneIDs i ≥ 0 then v.Weights i / populatedSum v else v.Weights i) else 0)
        = (if v.BoneIDs i ≥ 0 then v.Weights i else 0) / populatedSum v := by
    intro i
    by_cases c : v.BoneIDs i ≥ 0 <;> simp [c]
  unfold populatedSum at *
  simp only [e]
  rw [← Finset.sum_div, div_self hne]

theorem assignPhase_meshZeroWeight :
    (assignPhase BoneState.initial [vertexUnused] meshZeroWeight).2 = [vertexZeroWeight] := by
  simp [assignPhase, meshZeroWeight, processBone, registerBone, findBone, BoneState.initial,
    assignAll, assignWeight, vertexUnused, vertexZeroWeight, finRange_four, assignSlots, vertexOf]
  funext i; fin_cases i <;> simp [Function.update]

theorem assignPhase_meshAB :
    (assignPhase BoneState.initial [vertexUnused] meshAB).2 = [vertexAB] := by
  simp [assignPhase, meshAB, processBone, registerBone, findBone, BoneState.initial,
    assignAll, assignWeight, vertexUnused, vertexAB, finRange_four, assignSlots, vertexOf]
  constructor <;> funext i <;> fin_cases i <;> simp [Function.update]

theorem populatedSum_vertexAB : populatedSum vertexAB = 6 / 5 := by
  simp [populatedSum, vertexAB, vertexOf, Fin.sum_univ_four]
  norm_num

theorem populatedSum_vertexZeroWeight : populatedSum vertexZeroWeight = 0 := by
  simp [populatedSum, vertexZeroWeight, vertexOf, Fin.sum_univ_four]

/-! ## Normalization (C5, C6) -/

/-- C5, as stated, fails: a bone that gives vertex 0 the weight 0 populates
slot 0 of that vertex, the pass leaves it alone (the total is not positive), and
the sum of its populated weights is 0, not 1. -/
theorem normalization_sum_counterexample :
    (ExtractBoneWeightForVertices BoneState.initial [vertexUnused] meshZeroWeight).2
      = [vertexZeroWeight] ∧
    0 ≤ vertexZeroWeight.BoneIDs 0 ∧
    populatedSum vertexZeroWeight = 0 ∧
    populatedSum vertexZeroWeight ≠ 1 := by
  refine ⟨?_, by simp [vertexZeroWeight, vertexOf], populatedSum_vertexZeroWeight,
    by rw [populatedSum_vertexZeroWeight]; norm_num⟩
  show (assignPhase BoneState.initial [vertexUnused] meshZeroWeight).2.map normalizeVertex
    = [vertexZeroWeight]
  rw [assignPhase_meshZeroWeight]
  simp only [List.map]
  rw [normalizeVertex_of_nonpos]
  rw [totalWeight_eq_populatedSum, populatedSum_vertexZeroWeight]
  exact lt_irrefl 0

/-- C5 (amended): the output of `ExtractBoneWeightForVertices` is the result of
the bone loop with the normalization applied to each vertex; for every vertex
whose populated weights (slots with `BoneIDs[i] >= 0`) sum to a positive total
before the pass, the sum of the weights in its populated slots equals 1 after
it; a vertex whose populated weights sum to 0 or less is left as it is, every
field of it; so every output vertex has a populated sum of 1 or a non-positive
one. -/
theorem normalization_sum_one (st : BoneState) (vertices : List Vertex) (mesh : aiMesh) :
    (ExtractBoneWeightForVertices st vertices mesh).2
      = (assignPhase st vertices mesh).2.map normalizeVertex ∧
    (∀ v ∈ (assignPhase st vertices mesh).2, 0 < populatedSum v →
      populatedSum (normalizeVertex v) = 1) ∧
    (∀ v ∈ (assignPhase st vertices mesh).2, populatedSum v ≤ 0 →
      normalizeVertex v = v) ∧
    (∀ v ∈ (ExtractBoneWeightForVertices st vertices mesh).2,
      populatedSum v = 1 ∨ populatedSum v ≤ 0) := by
  refine ⟨rfl, fun v _ h => populatedSum_normalize v h, fun v _ h => ?_, ?_⟩
  · exact normalizeVertex_of_nonpos v (by rw [totalWeight_eq_populatedSum]; exact not_lt.mpr h)
  · intro v hv
    obtain ⟨u, _, rfl⟩ := List.mem_map.mp hv
    by_cases h : 0 < populatedSum u
    · exact Or.inl (populatedSum_normalize u h)
    · right
      rw [normalizeVertex_of_nonpos u (by rw [totalWeight_eq_populatedSum]; exact h)]
      exact not_lt.mp h

/-- Witness for C5 (amended): the vertex of the scenario `(boneA, 0.6),
(boneB, 0.6)` has the positive total `6/5` after the bone loop and the sum 1
after the pass; the vertex that a bone gave the weight 0 has the total 0 after
the bone loop and comes out of the pass as it went in. -/
theorem normalization_sum_one_witness :
    (vertexAB ∈ (assignPhase BoneState.initial [vertexUnused] meshAB).2 ∧
      0 < populatedSum vertexAB ∧
      populatedSum (normalizeVertex vertexAB) = 1) ∧
    (vertexZeroWeight ∈ (assignPhase BoneState.initial [vertexUnused] meshZeroWeight).2 ∧
      populatedSum vertexZeroWeight ≤ 0 ∧
      normalizeVertex vertexZeroWeight = vertexZeroWeight) :=
  ⟨⟨by rw [assignPhase_meshAB]; exact List.mem_singleton.mpr rfl,
      by rw [populatedSum_vertexAB]; norm_num,
      (normalization_sum_one BoneState.initial [vertexUnused] meshAB).2.1 vertexAB
        (by rw [assignPhase_meshAB]; exact List.mem_singleton.mpr rfl)
        (by rw [populatedSum_vertexAB]; norm_num)⟩,
    ⟨by rw [assignPhase_meshZeroWeight]; exact List.mem_singleton.mpr rfl,
      by rw [populatedSum_vertexZeroWeight],
      (normalization_sum_one BoneState.initial [vertexUnused] meshZeroWeight).2.2.1
        vertexZeroWeight
        (by rw [assignPhase_meshZeroWeight]; exact List.mem_singleton.mpr rfl)
        (by rw [populatedSum_vertexZeroWeight])⟩⟩

/-- C6: the normalization pass scales weights proportionally and touches
nothing else.  For a vertex whose populated weights sum to a total `> 0`, each
populated weight becomes `weight / total` and each unpopulated slot keeps its
weight; bone ids, position, normal and texture coordinates of every vertex are
unchanged; a vertex with zero populated slots is left entirely unchanged; and
the pass maps the vertex array one to one, leaving the bone table and counter
as the bone loop produced them. -/
theorem normalization_proportional (v : Vertex) (st : BoneState) (vertices : List Vertex)
    (mesh : aiMesh) :
    (0 < populatedSum v → ∀ i,
      (normalizeVertex v).Weights i =
        if 0 ≤ v.BoneIDs i then v.Weights i / populatedSum v else v.Weights i) ∧
    (normalizeVertex v).BoneIDs = v.BoneIDs ∧
    (normalizeVertex v).Position = v.Position ∧
    (normalizeVertex v).Normal = v.Normal ∧
    (normalizeVertex v).TexCoords = v.TexCoords ∧
    ((∀ i, v.BoneIDs i < 0) → normalizeVertex v = v) ∧
    (ExtractBoneWeightForVertices st vertices mesh).2
      = (assignPhase st vertices mesh).2.map normalizeVertex ∧
    (ExtractBoneWeightForVertices st vertices mesh).1 = (assignPhase st vertices mesh).1 ∧
    (ExtractBoneWeightForVertices st vertices mesh).2.length
      = (assignPhase st vertices mesh).2.length := by
  have hfields : (normalizeVertex v).BoneIDs = v.BoneIDs ∧
      (normalizeVertex v).Position = v.Position ∧
      (normalizeVertex v).Normal = v.Normal ∧
      (normalizeVertex v).TexCoords = v.TexCoords := by
    by_cases h : 0 < totalWeight v
    · rw [normalizeVertex_of_pos v h]
      exact ⟨rfl, rfl, rfl, rfl⟩
    · rw [normalizeVertex_of_nonpos v h]
      exact ⟨rfl, rfl, rfl, rfl⟩
  refine ⟨?_, hfields.1, hfields.2.1, hfields.2.2.1, hfields.2.2.2, ?_, rfl, rfl, ?_⟩
  · intro h i
    have ht : 0 < totalWeight v := by rw [totalWeight_eq_populatedSum]; exact h
    rw [normalizeVertex_of_pos v ht, totalWeight_eq_populatedSum]
  · intro h
    apply normalizeVertex_of_nonpos
    rw [totalWeight_eq_populatedSum]
    unfold populatedSum
    have : ∀ i : Fin 4, (if v.BoneIDs i ≥ 0 then v.Weights i else 0) = 0 := by
      intro i
      rw [if_neg (not_le.mpr (h i))]
    simp only [this, Finset.sum_const_zero]
    exact lt_irrefl 0
  · show ((assignPhase st vertices mesh).2.map normalizeVertex).length = _
    rw [List.length_map]

/-- Witness for C6: the weights `(boneA, 0.6), (boneB, 0.6)` normalize to
`(boneA, 0.5), (boneB, 0.5)`, the two unused slots keep weight 0, and a vertex
with no populated slot is returned as it is. -/
theorem normalization_proportional_witness :
    (normalizeVertex vertexAB).Weights 0 = 1 / 2 ∧
    (normalizeVertex vertexAB).Weights 1 = 1 / 2 ∧
    (normalizeVertex vertexAB).Weights 2 = 0 ∧
    (normalizeVertex vertexAB).Weights 3 = 0 ∧
    (normalizeVertex vertexAB).BoneIDs = ![0, 1, -1, -1] ∧
    normalizeVertex vertexUnused = vertexUnused := by
  have h := normalization_proportional vertexAB BoneState.initial [] ⟨[]⟩
  have hu := normalization_proportional vertexUnused BoneState.initial [] ⟨[]⟩
  have hpos : 0 < populatedSum vertexAB := by rw [populatedSum_vertexAB]; norm_num
  refine ⟨?_, ?_, ?_, ?_, ?_, ?_⟩
  · rw [h.1 hpos 0, populatedSum_vertexAB]
    norm_num [vertexAB, vertexOf]
  · rw [h.1 hpos 1, populatedSum_vertexAB]
    norm_num [vertexAB, vertexOf]
  · rw [h.1 hpos 2, populatedSum_vertexAB]
    norm_num [vertexAB, vertexOf]
  · rw [h.1 hpos 3, populatedSum_vertexAB]
    norm_num [vertexAB, vertexOf]
  · rw [h.2.1]
    rfl
  · apply hu.2.2.2.2.2.1
    intro i
    fin_cases i <;> simp [vertexUnused, vertexOf]

/-! ## Weight assignment (C7, C8) -/

/-- C7: assigning `(boneId, weight)` to an in-range vertex that has at least
one unused slot writes the pair into the lowest-index slot whose `BoneIDs`
entry is negative, and leaves the vertex's other three slots, its remaining
fields, the length of the vertex array and every other vertex unchanged. -/
theorem assign_first_free (vertices : List Vertex) (boneID : Int) (w : aiVertexWeight)
    (v : Vertex) (hv : vertices[w.mVertexId]? = some v) (hfree : ∃ i, v.BoneIDs i < 0) :
    ∃ (k : Fin 4) (v' : Vertex),
      v.BoneIDs k < 0 ∧ (∀ j, j < k → 0 ≤ v.BoneIDs j) ∧
      (assignWeight vertices boneID w)[w.mVertexId]? = some v' ∧
      v'.BoneIDs k = boneID ∧ v'.Weights k = w.mWeight ∧
      (∀ s, s ≠ k → v'.BoneIDs s = v.BoneIDs s ∧ v'.Weights s = v.Weights s) ∧
      v'.Position = v.Position ∧ v'.Normal = v.Normal ∧ v'.TexCoords = v.TexCoords ∧
      (assignWeight vertices boneID w).length = vertices.length ∧
      (∀ j, j ≠ w.mVertexId → (assignWeight vertices boneID w)[j]? = vertices[j]?) := by
  obtain ⟨k, hk, hmin⟩ := exists_lowest_free v hfree
  obtain ⟨hlt, _⟩ := List.getElem?_eq_some_iff.mp hv
  refine ⟨k, { v with Weights := Function.update v.Weights k w.mWeight,
                        BoneIDs := Function.update v.BoneIDs k boneID },
    hk, hmin, ?_, ?_, ?_, ?_, ?_, ?_, ?_, assignWeight_length vertices boneID w,
    fun j hj => assignWeight_other vertices boneID w j hj⟩
  · rw [assignWeight_in_range vertices boneID w v hv, assignSlots_first boneID w.mWeight v k hk hmin]
    exact List.getElem?_set_eq_of_lt _ hlt
  · simp
  · simp
  · intro s hs
    exact ⟨Function.update_noteq hs _ _, Function.update_noteq hs _ _⟩
  · rfl
  · rfl
  · rfl

/-- Witness for C7: a vertex whose slot 0 is taken receives `(7, 1/4)` in
slot 1. -/
theorem assign_first_free_witness :
    ∃ (k : Fin 4) (v' : Vertex),
      vertexZeroWeight.BoneIDs k < 0 ∧ (∀ j, j < k → 0 ≤ vertexZeroWeight.BoneIDs j) ∧
      (assignWeight [vertexZeroWeight] 7 ⟨0, 1 / 4⟩)[0]? = some v' ∧
      v'.BoneIDs k = 7 ∧ v'.Weights k = 1 / 4 ∧
      (∀ s, s ≠ k → v'.BoneIDs s = vertexZeroWeight.BoneIDs s ∧
        v'.Weights s = vertexZeroWeight.Weights s) ∧
      v'.Position = vertexZeroWeight.Position ∧ v'.Normal = vertexZeroWeight.Normal ∧
      v'.TexCoords = vertexZeroWeight.TexCoords ∧
      (assignWeight [vertexZeroWeight] 7 ⟨0, 1 / 4⟩).length = [vertexZeroWeight].length ∧
      (∀ j, j ≠ 0 → (assignWeight [vertexZeroWeight] 7 ⟨0, 1 / 4⟩)[j]? = [vertexZeroWeight][j]?) :=
  assign_first_free [vertexZeroWeight] 7 ⟨0, 1 / 4⟩ vertexZeroWeight rfl
    ⟨1, by simp [vertexZeroWeight, vertexOf]⟩

theorem assignWeight_full (vertices : List Vertex) (b : Int) (w : aiVertexWeight) (v : Vertex)
    (hv : vertices[w.mVertexId]? = some v) (hfull : Full v) :
    assignWeight vertices b w = vertices := by
  rw [assignWeight_in_range vertices b w v hv, assignSlots_full b w.mWeight v hfull]
  apply List.ext_getElem?
  intro j
  by_cases hj : w.mVertexId = j
  · subst hj
    obtain ⟨hlt, _⟩ := List.getElem?_eq_some_iff.mp hv
    rw [List.getElem?_set_self hlt, hv]
  · rw [List.getElem?_set_ne hj]

theorem assignAll_cons (vertices : List Vertex) (a : Int × aiVertexWeight)
    (rest : List (Int × aiVertexWeight)) :
    assignAll vertices (a :: rest) = assignAll (assignWeight vertices a.1 a.2) rest := rfl

theorem assignAll_append (vertices : List Vertex) (l1 l2 : List (Int × aiVertexWeight)) :
    assignAll vertices (l1 ++ l2) = assignAll (assignAll vertices l1) l2 := by
  unfold assignAll
  rw [List.foldl_append]

/-- Invariant of a run of assignments with non-negative bone ids on a vertex
whose first `c` slots are populated and whose other slots are free: the
populated slots stay, the next free slots receive the assignments that target
the vertex in encounter order, and the slots beyond stay free. -/
theorem assignAll_prefix (i : Nat) (assignments : List (Int × aiVertexWeight)) :
    ∀ (vertices : List Vertex) (v : Vertex) (c : Nat),
      vertices[i]? = some v →
      (∀ k : Fin 4, k.val < c → 0 ≤ v.BoneIDs k) →
      (∀ k : Fin 4, c ≤ k.val → v.BoneIDs k < 0) →
      (∀ a ∈ assignments, 0 ≤ a.1) →
      ∃ v', (assignAll vertices assignments)[i]? = some v' ∧ ∀ k : Fin 4,
        (k.val < c → v'.BoneIDs k = v.BoneIDs k ∧ v'.Weights k = v.Weights k) ∧
        (∀ a, c ≤ k.val → (assignmentsTo i assignments)[k.val - c]? = some a →
            v'.BoneIDs k = a.1 ∧ v'.Weights k = a.2.mWeight) ∧
        (c + (assignmentsTo i assignments).length ≤ k.val →
            v'.BoneIDs k = v.BoneIDs k ∧ v'.Weights k = v.Weights k) := by
  induction assignments with
  | nil =>
    intro vertices v c hv _ _ _
    exact ⟨v, hv, fun k => ⟨fun _ => ⟨rfl, rfl⟩,
      fun a _ h => by simp [assignmentsTo] at h, fun _ => ⟨rfl, rfl⟩⟩⟩
  | cons a rest ih =>
    intro vertices v c hv hlo hhi hnn
    have hnn' : ∀ a' ∈ rest, 0 ≤ a'.1 := fun a' h => hnn a' (List.mem_cons_of_mem _ h)
    have ha : 0 ≤ a.1 := hnn a (List.mem_cons_self _ _)
    rw [assignAll_cons]
    by_cases hi : a.2.mVertexId = i
    · have hfilter : assignmentsTo i (a :: rest) = a :: assignmentsTo i rest := by
        simp [assignmentsTo, hi]
      have hv' : vertices[a.2.mVertexId]? = some v := by rw [hi]; exact hv
      obtain ⟨hlt, _⟩ := List.getElem?_eq_some_iff.mp hv
      by_cases hc : c < 4
      · have hk : v.BoneIDs ⟨c, hc⟩ < 0 := hhi ⟨c, hc⟩ le_rfl
        have hmin : ∀ j : Fin 4, j < ⟨c, hc⟩ → 0 ≤ v.BoneIDs j := fun j hj => hlo j hj
        have e := assignWeight_in_range vertices a.1 a.2 v hv'
        rw [assignSlots_first a.1 a.2.mWeight v ⟨c, hc⟩ hk hmin, hi] at e
        have hv1 : (assignWeight vertices a.1 a.2)[i]? =
            some { v with Weights := Function.update v.Weights ⟨c, hc⟩ a.2.mWeight,
                          BoneIDs := Function.update v.BoneIDs ⟨c, hc⟩ a.1 } := by
          rw [e]; exact List.getElem?_set_self hlt
        obtain ⟨v', hget, hprop⟩ := ih (assignWeight vertices a.1 a.2) _ (c + 1) hv1
          (fun k hk1 => by
            by_cases hkc : k = ⟨c, hc⟩
            · subst hkc; simpa using ha
            · simp only [Function.update_noteq hkc]
              exact hlo k (by
                have : k.val ≠ c := fun h => hkc (Fin.ext h)
                omega))
          (fun k hk1 => by
            have hkc : k ≠ ⟨c, hc⟩ := fun h => by
              have := congrArg Fin.val h
              simp at this
              omega
            simp only [Function.update_noteq hkc]
            exact hhi k (by omega))
          hnn'
        refine ⟨v', hget, fun k => ?_⟩
        obtain ⟨p1, p2, p3⟩ := hprop k
        rw [hfilter]
        refine ⟨?_, ?_, ?_⟩
        · intro hk1
          have hkc : k ≠ ⟨c, hc⟩ := fun h => by
            have := congrArg Fin.val h
            simp at this
            omega
          have := p1 (by omega)
          simpa [Function.update_noteq hkc] using this
        · intro a' hck hget'
          by_cases hkc : k.val = c
          · have hk' : k = ⟨c, hc⟩ := Fin.ext hkc
            have h0 : k.val - c = 0 := by omega
            rw [h0] at hget'
            have ha' : a = a' := by simpa using hget'
            subst ha'
            have := p1 (by omega)
            subst hk'
            simpa using this
          · have hs : k.val - c = (k.val - (c + 1)) + 1 := by omega
            rw [hs, List.getElem?_cons_succ] at hget'
            exact p2 a' (by omega) hget'
        · intro hlen
          rw [List.length_cons] at hlen
          have hkc : k ≠ ⟨c, hc⟩ := fun h => by
            have := congrArg Fin.val h
            simp at this
            omega
          have := p3 (by omega)
          simpa [Function.update_noteq hkc] using this
      · have hfull : Full v := fun k => hlo k (by have := k.isLt; omega)
        rw [assignWeight_full vertices a.1 a.2 v hv' hfull]
        obtain ⟨v', hget, hprop⟩ := ih vertices v c hv hlo hhi hnn'
        refine ⟨v', hget, fun k => ?_⟩
        obtain ⟨p1, _, _⟩ := hprop k
        have hk4 := k.isLt
        exact ⟨p1, fun a' hck _ => absurd hck (by omega), fun hlen => absurd hlen (by omega)⟩
    · have hfilter : assignmentsTo i (a :: rest) = assignmentsTo i rest := by
        simp [assignmentsTo, hi]
      have hv1 : (assignWeight vertices a.1 a.2)[i]? = some v := by
        rw [assignWeight_other vertices a.1 a.2 i (Ne.symm hi)]; exact hv
      rw [hfilter]
      exact ih (assignWeight vertices a.1 a.2) v c hv1 hlo hhi hnn'

/-! ## Bone table: auxiliary facts -/

theorem findBone_nil (n : String) : findBone [] n = none := rfl

theorem findBone_cons (e : String × BoneInfo) (m : List (String × BoneInfo)) (n : String) :
    findBone (e :: m) n = if e.1 = n then some e.2 else findBone m n := by
  unfold findBone
  by_cases h : e.1 = n
  · simp [List.find?_cons, h]
  · simp [List.find?_cons, h]

theorem findBone_eq_none_iff (m : List (String × BoneInfo)) (n : String) :
    findBone m n = none ↔ n ∉ m.map Prod.fst := by
  induction m with
  | nil => simp [findBone_nil]
  | cons e m ih =>
    rw [findBone_cons]
    by_cases h : e.1 = n
    · simp [h]
    · simp only [h, if_false, ih, List.map_cons, List.mem_cons, not_or]
      exact ⟨fun h' => ⟨fun h'' => h h''.symm, h'⟩, fun h' => h'.2⟩

theorem findBone_some_mem (m : List (String × BoneInfo)) (n : String) (info : BoneInfo)
    (h : findBone m n = some info) : (n, info) ∈ m := by
  induction m with
  | nil => simp [findBone_nil] at h
  | cons e m ih =>
    rw [findBone_cons] at h
    by_cases c : e.1 = n
    · simp only [c, if_true, Option.some.injEq] at h
      have : e = (n, info) := Prod.ext c h
      rw [this]
      exact List.mem_cons_self _ _
    · simp only [c, if_false] at h
      exact List.mem_cons_of_mem _ (ih h)

theorem findBone_append (m l : List (String × BoneInfo)) (n : String) :
    findBone (m ++ l) n = (findBone m n).or (findBone l n) := by
  induction m with
  | nil => simp [findBone_nil]
  | cons e m ih =>
    rw [List.cons_append, findBone_cons, findBone_cons]
    by_cases c : e.1 = n
    · simp [c]
    · simp [c, ih]

theorem registerBone_of_some (st : BoneState) (bone : aiBone) (info : BoneInfo)
    (h : findBone st.boneInfoMap bone.mName = some info) :
    registerBone st bone = (st, info.id) := by
  unfold registerBone
  rw [h]

theorem registerBone_of_none (st : BoneState) (bone : aiBone)
    (h : findBone st.boneInfoMap bone.mName = none) :
    registerBone st bone =
      (⟨st.boneInfoMap ++ [(bone.mName, ⟨st.boneCounter, ConvertMatrixToGLM bone.mOffsetMatrix⟩)],
        st.boneCounter + 1⟩, st.boneCounter) := by
  unfold registerBone
  rw [h]

/-- Registration never changes what the table holds for a name it already has. -/
theorem findBone_registerBone (st : BoneState) (bone : aiBone) (n : String) (info : BoneInfo)
    (h : findBone st.boneInfoMap n = some info) :
    findBone (registerBone st bone).1.boneInfoMap n = some info := by
  cases hb : findBone st.boneInfoMap bone.mName with
  | some i => rw [registerBone_of_some st bone i hb]; exact h
  | none =>
    rw [registerBone_of_none st bone hb]
    show findBone (st.boneInfoMap ++ _) n = some info
    rw [findBone_append, h]
    rfl

/-- After registration the table holds the returned id under the bone's name. -/
theorem findBone_registerBone_self (st : BoneState) (bone : aiBone) :
    ∃ info, findBone (registerBone st bone).1.boneInfoMap bone.mName = some info ∧
      info.id = (registerBone st bone).2 := by
  cases hb : findBone st.boneInfoMap bone.mName with
  | some i => rw [registerBone_of_some st bone i hb]; exact ⟨i, hb, rfl⟩
  | none =>
    rw [registerBone_of_none st bone hb]
    refine ⟨⟨st.boneCounter, ConvertMatrixToGLM bone.mOffsetMatrix⟩, ?_, rfl⟩
    show findBone (st.boneInfoMap ++ _) bone.mName = _
    rw [findBone_append, hb, findBone_cons]
    simp

theorem registerAll_nil (st : BoneState) : registerAll st [] = st := rfl

theorem registerAll_cons (st : BoneState) (b : aiBone) (bs : List aiBone) :
    registerAll st (b :: bs) = registerAll (registerBone st b).1 bs := rfl

theorem registerAll_append (st : BoneState) (l1 l2 : List aiBone) :
    registerAll st (l1 ++ l2) = registerAll (registerAll st l1) l2 := by
  unfold registerAll
  rw [List.foldl_append]

theorem findBone_registerAll (bones : List aiBone) :
    ∀ (st : BoneState) (n : String) (info : BoneInfo),
      findBone st.boneInfoMap n = some info →
      findBone (registerAll st bones).boneInfoMap n = some info := by
  induction bones with
  | nil => intro st n info h; exact h
  | cons b bs ih =>
    intro st n info h
    rw [registerAll_cons]
    exact ih _ n info (findBone_registerBone st b n info h)

/-- The bone loop is registration of the bones paired with the run of their
assignments. -/
theorem foldl_processBone (bones : List aiBone) :
    ∀ (st : BoneState) (vertices : List Vertex),
      bones.foldl processBone (st, vertices) =
        (registerAll st bones, assignAll vertices (boneAssignments st bones)) := by
  induction bones with
  | nil => intro st vertices; rfl
  | cons b bs ih =>
    intro st vertices
    rw [List.foldl_cons]
    show bs.foldl processBone ((registerBone st b).1,
      assignAll vertices (b.mWeights.map (fun w => ((registerBone st b).2, w)))) = _
    rw [ih, registerAll_cons]
    show _ = (_, assignAll vertices ((b.mWeights.map (fun w => ((registerBone st b).2, w)))
      ++ boneAssignments (registerBone st b).1 bs))
    rw [assignAll_append]

theorem assignPhase_eq (st : BoneState) (vertices : List Vertex) (mesh : aiMesh) :
    assignPhase st vertices mesh =
      (registerAll st mesh.mBones, assignAll vertices (boneAssignments st mesh.mBones)) :=
  foldl_processBone mesh.mBones st vertices

theorem nonNegIds_registerBone (st : BoneState) (bone : aiBone) (h : NonNegIds st) :
    NonNegIds (registerBone st bone).1 ∧ 0 ≤ (registerBone st bone).2 := by
  cases hb : findBone st.boneInfoMap bone.mName with
  | some i =>
    rw [registerBone_of_some st bone i hb]
    exact ⟨h, h.2 _ (findBone_some_mem _ _ _ hb)⟩
  | none =>
    rw [registerBone_of_none st bone hb]
    refine ⟨⟨?_, ?_⟩, h.1⟩
    · show 0 ≤ st.boneCounter + 1
      have := h.1
      omega
    · intro e he
      rcases List.mem_append.mp he with h1 | h1
      · exact h.2 e h1
      · rw [List.mem_singleton.mp h1]
        exact h.1

theorem boneAssignments_nonneg (bones : List aiBone) :
    ∀ st : BoneState, NonNegIds st → ∀ a ∈ boneAssignments st bones, 0 ≤ a.1 := by
  induction bones with
  | nil => intro st _ a ha; simp [boneAssignments] at ha
  | cons b bs ih =>
    intro st hst a ha
    obtain ⟨h1, h2⟩ := nonNegIds_registerBone st b hst
    simp only [boneAssignments] at ha
    rcases List.mem_append.mp ha with h | h
    · obtain ⟨w, _, rfl⟩ := List.mem_map.mp h
      exact h2
    · exact ih _ h1 a h

theorem nonNegIds_initial : NonNegIds BoneState.initial :=
  ⟨le_refl 0, fun e he => by simp [BoneState.initial] at he⟩

theorem boneAssignments_meshFive :
    assignmentsTo 0 (boneAssignments BoneState.initial meshFive.mBones) =
      [(0, ⟨0, 1 / 5⟩), (1, ⟨0, 1 / 5⟩), (2, ⟨0, 1 / 5⟩), (3, ⟨0, 1 / 5⟩), (4, ⟨0, 1 / 5⟩)] := by
  simp [assignmentsTo, boneAssignments, meshFive, registerBone, findBone, BoneState.initial]

/-- C8: when all 4 slots of a vertex are already populated, a further weight
assignment to that vertex is dropped without any error: the whole vertex array
(that vertex and all others) is returned unchanged.  Consequently, in the bone
loop started on a vertex with no populated slot (bone ids are non-negative, as
the counter starts at 0), slot `k` ends up holding the `k`-th assignment made to
that vertex in encounter order, for `k = 0..3`, and slots beyond the number of
assignments are untouched: each vertex keeps exactly its first four
assignments. -/
theorem assign_full_dropped (vertices : List Vertex) (boneID : Int) (w : aiVertexWeight)
    (v : Vertex) (st : BoneState) (mesh : aiMesh) (i : Nat) (u : Vertex) :
    (vertices[w.mVertexId]? = some v → Full v → assignWeight vertices boneID w = vertices) ∧
    (NonNegIds st → vertices[i]? = some u → Unpopulated u →
      ∃ u', (assignPhase st vertices mesh).2[i]? = some u' ∧ ∀ k : Fin 4,
        (∀ a, (assignmentsTo i (boneAssignments st mesh.mBones))[k.val]? = some a →
          u'.BoneIDs k = a.1 ∧ u'.Weights k = a.2.mWeight) ∧
        ((assignmentsTo i (boneAssignments st mesh.mBones)).length ≤ k.val →
          u'.BoneIDs k = u.BoneIDs k ∧ u'.Weights k = u.Weights k)) := by
  refine ⟨fun hv hfull => assignWeight_full vertices boneID w v hv hfull, ?_⟩
  intro hst hu hun
  obtain ⟨u', hget, hprop⟩ := assignAll_prefix i (boneAssignments st mesh.mBones) vertices u 0 hu
    (fun k hk => absurd hk (Nat.not_lt_zero _)) (fun k _ => hun k)
    (boneAssignments_nonneg mesh.mBones st hst)
  refine ⟨u', by rw [assignPhase_eq]; exact hget, fun k => ?_⟩
  obtain ⟨_, p2, p3⟩ := hprop k
  exact ⟨fun a ha => p2 a (Nat.zero_le _) (by simpa using ha), fun hlen => p3 (by omega)⟩

/-- Witness for C8: a fifth assignment to a full vertex changes nothing, and of
five bones that all weight vertex 0 the vertex keeps the first four, in order. -/
theorem assign_full_dropped_witness :
    assignWeight [vertexFull] 9 ⟨0, 1 / 2⟩ = [vertexFull] ∧
    ∃ u', (assignPhase BoneState.initial [vertexUnused] meshFive).2[0]? = some u' ∧
      u'.BoneIDs = ![0, 1, 2, 3] ∧ u'.Weights = ![1 / 5, 1 / 5, 1 / 5, 1 / 5] := by
  have hfull : Full vertexFull := by
    intro k
    fin_cases k <;> simp [vertexFull, vertexOf]
  have hun : Unpopulated vertexUnused := by
    intro k
    fin_cases k <;> simp [vertexUnused, vertexOf]
  refine ⟨(assign_full_dropped [vertexFull] 9 ⟨0, 1 / 2⟩ vertexFull BoneState.initial meshFive 0
    vertexFull).1 rfl hfull, ?_⟩
  obtain ⟨u', hget, hprop⟩ := (assign_full_dropped [vertexUnused] 9 ⟨0, 1 / 2⟩ vertexFull
    BoneState.initial meshFive 0 vertexUnused).2 nonNegIds_initial rfl hun
  rw [boneAssignments_meshFive] at hprop
  have h0 := (hprop 0).1 (0, ⟨0, 1 / 5⟩) rfl
  have h1 := (hprop 1).1 (1, ⟨0, 1 / 5⟩) rfl
  have h2 := (hprop 2).1 (2, ⟨0, 1 / 5⟩) rfl
  have h3 := (hprop 3).1 (3, ⟨0, 1 / 5⟩) rfl
  refine ⟨u', hget, ?_, ?_⟩
  · funext k
    fin_cases k
    · exact h0.1
    · exact h1.1
    · exact h2.1
    · exact h3.1
  · funext k
    fin_cases k
    · exact h0.2
    · exact h1.2
    · exact h2.2
    · exact h3.2

/-! ## Bone registration (C9, C10) -/

/-- C10: bone registration is idempotent with first write wins.  Registering a
name that is already in the bone table returns the stored id and leaves the
table, every entry and `boneCounter` unchanged; so after any registration of a
bone, registering the same name again, whatever offset matrix and weights the
second bone carries, returns the same id and changes nothing, and a name that
was new keeps the offset supplied first. -/
theorem registerBone_idempotent (st : BoneState) (bone bone' : aiBone) (info : BoneInfo) :
    (findBone st.boneInfoMap bone.mName = some info → registerBone st bone = (st, info.id)) ∧
    (bone'.mName = bone.mName →
      registerBone (registerBone st bone).1 bone'
        = ((registerBone st bone).1, (registerBone st bone).2)) ∧
    (bone'.mName = bone.mName → findBone st.boneInfoMap bone.mName = none →
      findBone (registerBone (registerBone st bone).1 bone').1.boneInfoMap bone.mName
        = some ⟨st.boneCounter, ConvertMatrixToGLM bone.mOffsetMatrix⟩) := by
  refine ⟨fun h => registerBone_of_some st bone info h, ?_, ?_⟩
  · intro hname
    obtain ⟨i, hi, hid⟩ := findBone_registerBone_self st bone
    rw [registerBone_of_some _ bone' i (by rw [hname]; exact hi), hid]
  · intro hname hnone
    obtain ⟨i, hi, hid⟩ := findBone_registerBone_self st bone
    rw [registerBone_of_some _ bone' i (by rw [hname]; exact hi)]
    rw [registerBone_of_none st bone hnone]
    show findBone (st.boneInfoMap ++ _) bone.mName = _
    rw [findBone_append, hnone, findBone_cons]
    simp

/-- Witness for C10: after `boneA` is registered with the identity offset, a
second bone of the same name with another offset gets id 0 again, the members
are unchanged, and the table still reports the identity offset. -/
theorem registerBone_idempotent_witness :
    registerBone (registerBone BoneState.initial boneA).1 boneAagain
      = ((registerBone BoneState.initial boneA).1, 0) ∧
    registerBone (registerBone BoneState.initial boneA).1 boneAagain
      = ((registerBone BoneState.initial boneA).1, (registerBone BoneState.initial boneA).2) ∧
    findBone (registerBone (registerBone BoneState.initial boneA).1 boneAagain).1.boneInfoMap
        boneA.mName = some ⟨0, ConvertMatrixToGLM identityOffset⟩ :=
  ⟨(registerBone_idempotent (registerBone BoneState.initial boneA).1 boneAagain boneAagain
      ⟨0, ConvertMatrixToGLM identityOffset⟩).1
      (by simp [registerBone, findBone, BoneState.initial, boneA, boneAagain]),
    (registerBone_idempotent BoneState.initial boneA boneAagain
      ⟨0, ConvertMatrixToGLM identityOffset⟩).2.1 rfl,
    (registerBone_idempotent BoneState.initial boneA boneAagain
      ⟨0, ConvertMatrixToGLM identityOffset⟩).2.2 rfl rfl⟩

theorem denseTable_initial : DenseTable BoneState.initial := by
  refine ⟨rfl, ?_, ?_⟩
  · intro j e h
    simp [BoneState.initial] at h
  · simp [BoneState.initial]

theorem tableNames_registerBone (st : BoneState) (bone : aiBone) (n : String) :
    n ∈ tableNames (registerBone st bone).1 ↔ n ∈ tableNames st ∨ n = bone.mName := by
  cases hb : findBone st.boneInfoMap bone.mName with
  | some i =>
    rw [registerBone_of_some st bone i hb]
    have hmem : bone.mName ∈ tableNames st := by
      have := findBone_some_mem _ _ _ hb
      exact List.mem_map.mpr ⟨_, this, rfl⟩
    constructor
    · exact fun h => Or.inl h
    · rintro (h | h)
      · exact h
      · rw [h]; exact hmem
  | none =>
    rw [registerBone_of_none st bone hb]
    simp [tableNames]

theorem denseTable_registerBone (st : BoneState) (bone : aiBone) (h : DenseTable st) :
    DenseTable (registerBone st bone).1 := by
  cases hb : findBone st.boneInfoMap bone.mName with
  | some i => rw [registerBone_of_some st bone i hb]; exact h
  | none =>
    rw [registerBone_of_none st bone hb]
    obtain ⟨h1, h2, h3⟩ := h
    refine ⟨?_, ?_, ?_⟩
    · show st.boneCounter + 1 = ((st.boneInfoMap ++ [_]).length : Int)
      rw [List.length_append, h1]
      simp
    · intro j e he
      change (st.boneInfoMap ++ [_])[j]? = some e at he
      by_cases hj : j < st.boneInfoMap.length
      · rw [List.getElem?_append_left hj] at he
        exact h2 j e he
      · rw [List.getElem?_append_right (not_lt.mp hj)] at he
        have hj0 : j - st.boneInfoMap.length = 0 := by
          by_contra hne
          obtain ⟨m, hm⟩ := Nat.exists_eq_succ_of_ne_zero hne
          rw [hm] at he
          simp at he
        rw [hj0] at he
        simp only [List.getElem?_cons_zero, Option.some.injEq] at he
        rw [← he]
        show st.boneCounter = (j : Int)
        rw [h1]
        have : j = st.boneInfoMap.length := by omega
        rw [this]
    · show ((st.boneInfoMap ++ [_]).map Prod.fst).Nodup
      rw [List.map_append, List.nodup_append]
      refine ⟨h3, by simp, ?_⟩
      intro a ha hb'
      simp only [List.map_cons, List.map_nil, List.mem_singleton] at hb'
      rw [hb'] at ha
      exact (findBone_eq_none_iff _ _).mp hb ha

theorem denseTable_registerAll (bones : List aiBone) :
    ∀ st : BoneState, DenseTable st → DenseTable (registerAll st bones) := by
  induction bones with
  | nil => intro st h; exact h
  | cons b bs ih =>
    intro st h
    rw [registerAll_cons]
    exact ih _ (denseTable_registerBone st b h)

theorem tableNames_registerAll (bones : List aiBone) :
    ∀ (st : BoneState) (n : String),
      n ∈ tableNames (registerAll st bones) ↔ n ∈ tableNames st ∨ n ∈ bones.map (fun b => b.mName) := by
  induction bones with
  | nil => intro st n; simp [registerAll_nil]
  | cons b bs ih =>
    intro st n
    rw [registerAll_cons, ih, tableNames_registerBone]
    simp only [List.map_cons, List.mem_cons]
    tauto

theorem nodup_ids (l : List (String × BoneInfo))
    (h : ∀ (j : Nat) (e : String × BoneInfo), l[j]? = some e → e.2.id = (j : Int)) :
    (l.map (fun e => e.2.id)).Nodup := by
  rw [List.nodup_iff_injective_get]
  intro a b hab
  have ha : a.val < l.length := by simpa using a.isLt
  have hb : b.val < l.length := by simpa using b.isLt
  simp only [List.get_eq_getElem, List.getElem_map] at hab
  have h1 := h a.val l[a.val] (List.getElem?_eq_getElem ha)
  have h2 := h b.val l[b.val] (List.getElem?_eq_getElem hb)
  rw [h1, h2] at hab
  exact Fin.ext (by exact_mod_cast hab)

theorem ExtractBoneWeightForVertices_fst (st : BoneState) (vertices : List Vertex)
    (mesh : aiMesh) :
    (ExtractBoneWeightForVertices st vertices mesh).1 = registerAll st mesh.mBones := by
  show (assignPhase st vertices mesh).1 = _
  rw [assignPhase_eq]

/-- C9: bone ids are dense, 0-based and assigned in first-seen order.  Starting
from the empty table, after processing any sequence of bones (the members after
`ExtractBoneWeightForVertices` are those after registering the mesh's bones in
order, mesh after mesh): the entry of each name carries as id the number of
distinct names seen before its first occurrence, and the offset supplied
there; the table holds exactly the names of the sequence; the ids are pairwise
distinct and equal the insertion index; `boneCounter` equals the number of
entries; and processing further bones never changes an entry. -/
theorem bone_ids_dense (bones more : List aiBone) :
    (∀ pre b post, bones = pre ++ b :: post → b.mName ∉ pre.map (fun x => x.mName) →
      findBone (registerAll BoneState.initial bones).boneInfoMap b.mName
        = some ⟨((pre.map (fun x => x.mName)).toFinset.card : Int),
            ConvertMatrixToGLM b.mOffsetMatrix⟩) ∧
    (∀ n, n ∈ tableNames (registerAll BoneState.initial bones)
      ↔ n ∈ bones.map (fun x => x.mName)) ∧
    ((registerAll BoneState.initial bones).boneInfoMap.map (fun e => e.2.id)).Nodup ∧
    (∀ (j : Nat) (e : String × BoneInfo),
      (registerAll BoneState.initial bones).boneInfoMap[j]? = some e → e.2.id = (j : Int)) ∧
    (registerAll BoneState.initial bones).boneCounter
      = ((registerAll BoneState.initial bones).boneInfoMap.length : Int) ∧
    (∀ n info, findBone (registerAll BoneState.initial bones).boneInfoMap n = some info →
      findBone (registerAll BoneState.initial (bones ++ more)).boneInfoMap n = some info) ∧
    (∀ (st : BoneState) (vertices : List Vertex) (mesh mesh' : aiMesh),
      (ExtractBoneWeightForVertices st vertices mesh).1 = registerAll st mesh.mBones ∧
      (ExtractBoneWeightForVertices (ExtractBoneWeightForVertices st vertices mesh).1
          vertices mesh').1 = registerAll st (mesh.mBones ++ mesh'.mBones)) := by
  have hd := denseTable_registerAll bones BoneState.initial denseTable_initial
  have hnames : ∀ (l : List aiBone) (n : String),
      n ∈ tableNames (registerAll BoneState.initial l) ↔ n ∈ l.map (fun x => x.mName) := by
    intro l n
    rw [tableNames_registerAll]
    simp [tableNames, BoneState.initial]
  refine ⟨?_, hnames bones, nodup_ids _ hd.2.1, hd.2.1, hd.1, ?_, ?_⟩
  · intro pre b post hsplit hnew
    subst hsplit
    have hpre := denseTable_registerAll pre BoneState.initial denseTable_initial
    have hnone : findBone (registerAll BoneState.initial pre).boneInfoMap b.mName = none := by
      rw [findBone_eq_none_iff]
      exact fun hmem => hnew ((hnames pre b.mName).mp hmem)
    have hcard : (registerAll BoneState.initial pre).boneCounter
        = ((pre.map (fun x => x.mName)).toFinset.card : Int) := by
      rw [hpre.1]
      have e1 : (tableNames (registerAll BoneState.initial pre)).toFinset
          = (pre.map (fun x => x.mName)).toFinset := by
        ext n
        rw [List.mem_toFinset, List.mem_toFinset]
        exact hnames pre n
      have e2 : (tableNames (registerAll BoneState.initial pre)).toFinset.card
          = (registerAll BoneState.initial pre).boneInfoMap.length := by
        unfold tableNames
        rw [List.toFinset_card_of_nodup hpre.2.2, List.length_map]
      rw [← e1, e2]
    rw [registerAll_append, registerAll_cons]
    apply findBone_registerAll
    rw [registerBone_of_none _ b hnone]
    show findBone (_ ++ _) b.mName = _
    rw [findBone_append, hnone, findBone_cons, hcard]
    simp
  · intro n info h
    rw [registerAll_append]
    exact findBone_registerAll more _ n info h
  · intro st vertices mesh mesh'
    rw [ExtractBoneWeightForVertices_fst, ExtractBoneWeightForVertices_fst, registerAll_append]
    exact ⟨rfl, rfl⟩

/-- Witness for C9: in the sequence `boneA, boneB, boneA, boneC` the name
`boneC` is first seen after two distinct names and gets id 2, and the second
`boneA` does not disturb the entry of the first. -/
theorem bone_ids_dense_witness :
    findBone (registerAll BoneState.initial [boneA, boneB, boneAagain, boneC]).boneInfoMap
      boneC.mName = some ⟨2, ConvertMatrixToGLM boneC.mOffsetMatrix⟩ ∧
    findBone (registerAll BoneState.initial [boneA, boneB, boneAagain, boneC]).boneInfoMap
      boneA.mName = some ⟨0, ConvertMatrixToGLM boneA.mOffsetMatrix⟩ := by
  have hC := (bone_ids_dense [boneA, boneB, boneAagain, boneC] []).1
    [boneA, boneB, boneAagain] boneC [] rfl (by simp [boneA, boneB, boneAagain, boneC])
  have hA := (bone_ids_dense [boneA, boneB, boneAagain, boneC] []).1
    [] boneA [boneB, boneAagain, boneC] rfl (by simp)
  have cC : (([boneA, boneB, boneAagain].map (fun x => x.mName)).toFinset.card : Int) = 2 := by
    simp [boneA, boneB, boneAagain]
  have cA : ((([] : List aiBone).map (fun x => x.mName)).toFinset.card : Int) = 0 := by
    simp
  rw [cC] at hC
  rw [cA] at hA
  exact ⟨hC, hA⟩

/-! ## Degenerate tracks and the interpolation divisor (C16, C17, C18) -/

/-- C16: sampling an empty keyframe sequence (or a missing channel) at any time
returns the identity value and never fails: the zero vector for position, the
identity quaternion `(w=1, x=y=z=0)` for rotation, and the all-ones vector for
scale, whatever the other tracks of the channel hold. -/
theorem empty_track_identity (I : Quat → Quat → ℚ → Quat) (N : Quat → Quat) (t : ℚ)
    (name : String) (pk sk : List aiVectorKey) (rk : List aiQuatKey) :
    InterpolatePosition t (some ⟨name, [], rk, sk⟩) = ⟨0, 0, 0⟩ ∧
    InterpolateRotation I N t (some ⟨name, pk, [], sk⟩) = ⟨1, 0, 0, 0⟩ ∧
    InterpolateScale t (some ⟨name, pk, rk, []⟩) = ⟨1, 1, 1⟩ ∧
    InterpolatePosition t none = ⟨0, 0, 0⟩ ∧
    InterpolateRotation I N t none = ⟨1, 0, 0, 0⟩ ∧
    InterpolateScale t none = ⟨1, 1, 1⟩ :=
  ⟨rfl, rfl, rfl, rfl, rfl, rfl⟩

/-- C17: sampling a position, rotation or scale sequence that has exactly one
keyframe returns that keyframe's value for every query time, whatever the
keyframe's timestamp. -/
theorem single_key_value (I : Quat → Quat → ℚ → Quat) (N : Quat → Quat) (t : ℚ)
    (name : String) (pk sk : List aiVectorKey) (rk : List aiQuatKey)
    (k : aiVectorKey) (q : aiQuatKey) :
    InterpolatePosition t (some ⟨name, [k], rk, sk⟩) = k.mValue ∧
    InterpolateRotation I N t (some ⟨name, pk, [q], sk⟩) = q.mValue ∧
    InterpolateScale t (some ⟨name, pk, rk, [k]⟩) = k.mValue :=
  ⟨rfl, rfl, rfl⟩

theorem keyDeltaTime_pos (mTime : Nat → ℚ) (n : Nat) (t : ℚ) : 0 < keyDeltaTime mTime n t := by
  unfold keyDeltaTime
  simp only
  split_ifs with h
  · exact zero_lt_one
  · exact not_le.mp h

theorem keyFactor_mem (mTime : Nat → ℚ) (n : Nat) (t : ℚ) :
    0 ≤ keyFactor mTime n t ∧ keyFactor mTime n t ≤ 1 := by
  unfold keyFactor clamp
  exact ⟨le_min (le_max_right _ _) zero_le_one, min_le_right _ _⟩

/-- C18: for every track and every query time the divisor used to compute the
interpolation factor is strictly positive: it is the difference of the two
bounding timestamps when that difference is positive, and the unit interval 1
when the difference is zero or less (duplicate or out-of-order timestamps); the
factor is the clamped quotient by this divisor and always lies in `[0,1]`; on a
track with at least two keyframes each interpolator uses exactly this factor. -/
theorem divisor_positive (I : Quat → Quat → ℚ → Quat) (N : Quat → Quat) (mTime : Nat → ℚ)
    (n : Nat) (t : ℚ) (na : aiNodeAnim) :
    0 < keyDeltaTime mTime n t ∧
    (mTime (nextKeyIndex mTime n t) - mTime (keyIndex mTime n t) ≤ 0 →
      keyDeltaTime mTime n t = 1) ∧
    (0 < mTime (nextKeyIndex mTime n t) - mTime (keyIndex mTime n t) →
      keyDeltaTime mTime n t = mTime (nextKeyIndex mTime n t) - mTime (keyIndex mTime n t)) ∧
    keyFactor mTime n t
      = clamp ((t - mTime (keyIndex mTime n t)) / keyDeltaTime mTime n t) 0 1 ∧
    0 ≤ keyFactor mTime n t ∧ keyFactor mTime n t ≤ 1 ∧
    (2 ≤ na.mPositionKeys.length →
      InterpolatePosition t (some na) =
        lerp (vectorKeyAt na.mPositionKeys
            (keyIndex (vectorTimes na.mPositionKeys) na.mPositionKeys.length t)).mValue
          (vectorKeyAt na.mPositionKeys
            (nextKeyIndex (vectorTimes na.mPositionKeys) na.mPositionKeys.length t)).mValue
          (keyFactor (vectorTimes na.mPositionKeys) na.mPositionKeys.length t)) ∧
    (2 ≤ na.mScalingKeys.length →
      InterpolateScale t (some na) =
        lerp (vectorKeyAt na.mScalingKeys
            (keyIndex (vectorTimes na.mScalingKeys) na.mScalingKeys.length t)).mValue
          (vectorKeyAt na.mScalingKeys
            (nextKeyIndex (vectorTimes na.mScalingKeys) na.mScalingKeys.length t)).mValue
          (keyFactor (vectorTimes na.mScalingKeys) na.mScalingKeys.length t)) ∧
    (2 ≤ na.mRotationKeys.length →
      InterpolateRotation I N t (some na) =
        N (I (quatKeyAt na.mRotationKeys
              (keyIndex (quatTimes na.mRotationKeys) na.mRotationKeys.length t)).mValue
            (quatKeyAt na.mRotationKeys
              (nextKeyIndex (quatTimes na.mRotationKeys) na.mRotationKeys.length t)).mValue
            (keyFactor (quatTimes na.mRotationKeys) na.mRotationKeys.length t))) := by
  refine ⟨keyDeltaTime_pos mTime n t, ?_, ?_, rfl, (keyFactor_mem mTime n t).1,
    (keyFactor_mem mTime n t).2, fun h => InterpolatePosition_two t na h,
    fun h => InterpolateScale_two t na h, fun h => InterpolateRotation_two I N t na h⟩
  · intro h
    unfold keyDeltaTime
    simp only [h, if_true]
  · intro h
    unfold keyDeltaTime
    simp only [not_le.mpr h, if_false]

/-- Witness for C18: on `trackDup`, whose two timestamps coincide, the divisor
at time 0 is the substituted 1 and the factor is 0; the sample is the first
value. -/
theorem divisor_positive_witness :
    keyDeltaTime (vectorTimes trackDup) 2 0 = 1 ∧
    InterpolatePosition 0 (some (positionChannel trackDup)) =
      lerp (vectorKeyAt trackDup (keyIndex (vectorTimes trackDup) 2 0)).mValue
        (vectorKeyAt trackDup (nextKeyIndex (vectorTimes trackDup) 2 0)).mValue
        (keyFactor (vectorTimes trackDup) 2 0) :=
  ⟨(divisor_positive exampleLibrary.Interpolate exampleLibrary.Normalize (vectorTimes trackDup)
      2 0 (positionChannel trackDup)).2.1 (by decide!),
    (divisor_positive exampleLibrary.Interpolate exampleLibrary.Normalize (vectorTimes trackDup)
      2 0 (positionChannel trackDup)).2.2.2.2.2.2.1 (by decide)⟩

/-! ## Unit length of the sampled rotation (C20) -/

/-- The hypothesis on the key values is used: the one-keyframe path returns the
stored value as it is, so a key `(w=2, x=y=z=0)`, which is not a unit
quaternion, is sampled with the squared length 4. -/
theorem InterpolateRotation_single_nonunit :
    InterpolateRotation exampleLibrary.Interpolate exampleLibrary.Normalize 5
      (some longRotationChannel) = ⟨2, 0, 0, 0⟩ ∧
    normSq (InterpolateRotation exampleLibrary.Interpolate exampleLibrary.Normalize 5
      (some longRotationChannel)) = 4 := by
  refine ⟨rfl, ?_⟩
  show normSq ⟨2, 0, 0, 0⟩ = 4
  norm_num [normSq]

/-- The hypothesis on `Normalize` is used: with a routine that leaves its
argument as it is, the sample halfway along `turnChannel` is the blend
`(16/25, 12/25, 0, 0)`, of squared length `16/25`. -/
theorem InterpolateRotation_unnormalized :
    InterpolateRotation exampleLibrary.Interpolate exampleLibrary.Normalize 5
      (some turnChannel) = ⟨16 / 25, 12 / 25, 0, 0⟩ ∧
    normSq (InterpolateRotation exampleLibrary.Interpolate exampleLibrary.Normalize 5
      (some turnChannel)) = 16 / 25 := by
  have e : InterpolateRotation exampleLibrary.Interpolate exampleLibrary.Normalize 5
      (some turnChannel) = ⟨16 / 25, 12 / 25, 0, 0⟩ := by decide!
  refine ⟨e, ?_⟩
  rw [e]
  norm_num [normSq]

theorem fmod_eq_mul (x y : ℚ) (hy : y ≠ 0) :
    fmod x y = y * (x / y - (((if 0 ≤ x / y then ⌊x / y⌋ else ⌈x / y⌉) : ℤ) : ℚ)) := by
  unfold fmod
  rw [mul_sub, mul_div_cancel₀ x hy]

theorem fmod_spec (x y : ℚ) (hy : y ≠ 0) :
    ∃ k : ℤ, fmod x y = x - (k : ℚ) * y ∧ |fmod x y| < |y| := by
  refine ⟨if 0 ≤ x / y then ⌊x / y⌋ else ⌈x / y⌉, ?_, ?_⟩
  · unfold fmod
    ring
  · rw [fmod_eq_mul x y hy, abs_mul]
    have hypos : 0 < |y| := abs_pos.mpr hy
    have hlt : |x / y - (((if 0 ≤ x / y then ⌊x / y⌋ else ⌈x / y⌉) : ℤ) : ℚ)| < 1 := by
      split_ifs with h
      · have h1 := Int.floor_le (x / y)
        have h2 := Int.lt_floor_add_one (x / y)
        rw [abs_lt]
        constructor <;> linarith
      · have h1 := Int.le_ceil (x / y)
        have h2 := Int.ceil_lt_add_one (x / y)
        rw [abs_lt]
        constructor <;> linarith
    calc |y| * _ < |y| * 1 := mul_lt_mul_of_pos_left hlt hypos
      _ = |y| := mul_one _

theorem fmod_range (x y : ℚ) (hy : 0 < y) (hx : 0 ≤ x) : 0 ≤ fmod x y ∧ fmod x y < y := by
  have hq : 0 ≤ x / y := div_nonneg hx hy.le
  rw [fmod_eq_mul x y (ne_of_gt hy)]
  simp only [hq, if_true]
  have h1 := Int.floor_le (x / y)
  have h2 := Int.lt_floor_add_one (x / y)
  constructor
  · exact mul_nonneg hy.le (by linarith)
  · calc y * (x / y - (⌊x / y⌋ : ℚ)) < y * 1 := mul_lt_mul_of_pos_left (by linarith) hy
      _ = y := mul_one _

theorem UpdateAnimations_of_noop (lib : Library) (scene : Option aiScene)
    (h : ∀ (st : ModelState) (dt : ℚ), UpdateAnimation lib scene st dt = some st) :
    ∀ (dts : List ℚ) (st : ModelState), UpdateAnimations lib scene st dts = some st := by
  intro dts
  induction dts with
  | nil => intro st; rfl
  | cons dt rest ih =>
    intro st
    simp only [UpdateAnimations, h st dt]
    exact ih st

/-- C14: for a model whose scene is missing or has zero animation clips (or
whose first clip pointer is null), `UpdateAnimation` is a no-op for every
`deltaTime`: it returns, and the members (pose output array, animation clock
and all others) are exactly what they were before the call, across any number
of repeated calls. -/
theorem update_without_animation (lib : Library) (st : ModelState) (dt : ℚ) (dts : List ℚ)
    (sc : aiScene) :
    UpdateAnimation lib none st dt = some st ∧
    UpdateAnimations lib none st dts = some st ∧
    (sc.mAnimations = [] →
      UpdateAnimation lib (some sc) st dt = some st ∧
      UpdateAnimations lib (some sc) st dts = some st) ∧
    (sc.mAnimations.head? = some none →
      UpdateAnimation lib (some sc) st dt = some st ∧
      UpdateAnimations lib (some sc) st dts = some st) := by
  refine ⟨rfl, UpdateAnimations_of_noop lib none (fun _ _ => rfl) dts st, ?_, ?_⟩
  · intro h
    have hno : ∀ (s : ModelState) (d : ℚ), UpdateAnimation lib (some sc) s d = some s := by
      intro s d
      simp only [UpdateAnimation, h]
    exact ⟨hno st dt, UpdateAnimations_of_noop lib (some sc) hno dts st⟩
  · intro h
    have hno : ∀ (s : ModelState) (d : ℚ), UpdateAnimation lib (some sc) s d = some s := by
      intro s d
      cases hA : sc.mAnimations with
      | nil => simp only [UpdateAnimation, hA]
      | cons a rest =>
        rw [hA] at h
        simp only [List.head?_cons, Option.some.injEq] at h
        subst h
        simp only [UpdateAnimation, hA]
    exact ⟨hno st dt, UpdateAnimations_of_noop lib (some sc) hno dts st⟩

/-- Witness for C14: on the scene without clips three frame updates leave the
example members as they are. -/
theorem update_without_animation_witness :
    UpdateAnimation exampleLibrary (some staticScene) exampleState (1 / 60) = some exampleState ∧
    UpdateAnimations exampleLibrary (some staticScene) exampleState [1 / 60, 1 / 30, 5]
      = some exampleState :=
  (update_without_animation exampleLibrary exampleState (1 / 60) [1 / 60, 1 / 30, 5]
    staticScene).2.2.1 rfl

/-- C15: for a model with an animation clip (and a root node),
`UpdateAnimation(deltaSeconds)` returns with the clock set to
`fmod(clock + deltaSeconds * ticksPerSecond, clipDuration)`, where
`ticksPerSecond` is the clip's value, or 25 when the clip specifies 0, and with
the pose array that `ReadNodeHierarchy` produces at that wrapped time from the
root with the identity as parent transform; the other members are unchanged.
For a non-zero duration the new clock differs from the accumulated time by an
integer multiple of the duration and is smaller than it in magnitude; for a
positive duration and a non-negative accumulated time it lies in
`[0, duration)`. -/
theorem update_clock (lib : Library) (st : ModelState) (dt : ℚ) (sc : aiScene)
    (animation : aiAnimation) (rest : List (Option aiAnimation)) (root : aiNode)
    (ha : sc.mAnimations = some animation :: rest) (hr : sc.mRootNode = some root) :
    UpdateAnimation lib (some sc) st dt =
      some { st with
        animationTime :=
          fmod (st.animationTime + dt *
            (if animation.mTicksPerSecond ≠ 0 then animation.mTicksPerSecond else 25))
            animation.mDuration
        boneTransforms :=
          ReadNodeHierarchy lib st animation
            (fmod (st.animationTime + dt *
              (if animation.mTicksPerSecond ≠ 0 then animation.mTicksPerSecond else 25))
              animation.mDuration) root 1 st.boneTransforms } ∧
    (animation.mTicksPerSecond = 0 →
      (if animation.mTicksPerSecond ≠ 0 then animation.mTicksPerSecond else 25) = 25) ∧
    (animation.mDuration ≠ 0 → ∃ k : ℤ,
      fmod (st.animationTime + dt *
          (if animation.mTicksPerSecond ≠ 0 then animation.mTicksPerSecond else 25))
          animation.mDuration
        = (st.animationTime + dt *
          (if animation.mTicksPerSecond ≠ 0 then animation.mTicksPerSecond else 25))
          - (k : ℚ) * animation.mDuration ∧
      |fmod (st.animationTime + dt *
          (if animation.mTicksPerSecond ≠ 0 then animation.mTicksPerSecond else 25))
          animation.mDuration| < |animation.mDuration|) ∧
    (0 < animation.mDuration →
      0 ≤ st.animationTime + dt *
          (if animation.mTicksPerSecond ≠ 0 then animation.mTicksPerSecond else 25) →
      0 ≤ fmod (st.animationTime + dt *
          (if animation.mTicksPerSecond ≠ 0 then animation.mTicksPerSecond else 25))
          animation.mDuration ∧
      fmod (st.animationTime + dt *
          (if animation.mTicksPerSecond ≠ 0 then animation.mTicksPerSecond else 25))
          animation.mDuration < animation.mDuration) := by
  refine ⟨?_, ?_, fun hd => fmod_spec _ _ hd, fun hd hx => fmod_range _ _ hd hx⟩
  · simp only [UpdateAnimation, ha, hr]
  · intro h0
    simp [h0]

/-- Witness for C15: with clip duration 10 and `mTicksPerSecond = 0`, a frame
of `12/25` seconds from clock 0 accumulates 12 ticks, the clock wraps to 2, and
the pose is the one evaluated at `t = 2`. -/
theorem update_clock_witness :
    UpdateAnimation exampleLibrary (some exampleScene) exampleState (12 / 25) =
      some { exampleState with
        animationTime := 2
        boneTransforms :=
          ReadNodeHierarchy exampleLibrary exampleState exampleAnimation 2 rootNode 1
            exampleState.boneTransforms } := by
  have h := (update_clock exampleLibrary exampleState (12 / 25) exampleScene exampleAnimation []
    rootNode rfl rfl).1
  have e : fmod (exampleState.animationTime + 12 / 25 *
      (if exampleAnimation.mTicksPerSecond ≠ 0 then exampleAnimation.mTicksPerSecond else 25))
      exampleAnimation.mDuration = 2 := by
    decide!
  rw [e] at h
  exact h

/-! ## Local transform of a node (C12) -/

theorem FindNodeAnim_first (channels pre post : List aiNodeAnim) (na : aiNodeAnim)
    (d tps : ℚ) (name : String) (hsplit : channels = pre ++ na :: post)
    (hname : na.mNodeName = name) (hpre : ∀ c ∈ pre, c.mNodeName ≠ name) :
    FindNodeAnim ⟨d, tps, channels⟩ name = some na := by
  subst hsplit
  unfold FindNodeAnim
  induction pre with
  | nil => simp [hname]
  | cons c pre ih =>
    have hc : c.mNodeName ≠ name := hpre c (List.mem_cons_self _ _)
    simp only [List.cons_append, List.find?_cons]
    have : (c.mNodeName == name) = false := by simpa using hc
    rw [this]
    exact ih (fun x hx => hpre x (List.mem_cons_of_mem _ hx))

/-- C12: during pose evaluation the local transform of a node (the factor that
`ReadNodeHierarchy` multiplies onto the parent transform) equals its bind
transform when the clip has no channel with the node's name; otherwise it
equals `translate(position sample) * rotate(rotation sample) * scale(scale
sample)` of the first channel with that name, with the bind transform ignored;
so, glm mapping the zero translation, the identity quaternion and the unit
scale to the identity matrix, a channel with no keys at all yields the
identity local transform. -/
theorem local_transform (lib : Library) (st : ModelState) (animation : aiAnimation) (t : ℚ)
    (node : aiNode) (parent : Mat4) (bt : List Mat4) :
    (FindNodeAnim animation node.mName = none →
      nodeTransformation lib animation t node = ConvertMatrixToGLM node.mTransformation) ∧
    (∀ na, FindNodeAnim animation node.mName = some na →
      nodeTransformation lib animation t node =
        lib.translate (InterpolatePosition t (some na))
          * lib.mat4_cast (InterpolateRotation lib.Interpolate lib.Normalize t (some na))
          * lib.scale (InterpolateScale t (some na))) ∧
    ((∀ c ∈ animation.mChannels, c.mNodeName ≠ node.mName) →
      FindNodeAnim animation node.mName = none) ∧
    (∀ pre na post, animation.mChannels = pre ++ na :: post → na.mNodeName = node.mName →
      (∀ c ∈ pre, c.mNodeName ≠ node.mName) → FindNodeAnim animation node.mName = some na) ∧
    (∀ na, FindNodeAnim animation node.mName = some na →
      na.mPositionKeys = [] → na.mRotationKeys = [] → na.mScalingKeys = [] →
      lib.translate ⟨0, 0, 0⟩ = 1 → lib.mat4_cast ⟨1, 0, 0, 0⟩ = 1 → lib.scale ⟨1, 1, 1⟩ = 1 →
      nodeTransformation lib animation t node = 1) ∧
    ReadNodeHierarchy lib st animation t node parent bt =
      ReadNodeChildren lib st animation t node.mChildren
        (parent * nodeTransformation lib animation t node)
        (writeBone st node.mName (parent * nodeTransformation lib animation t node) bt) := by
  refine ⟨?_, ?_, ?_, ?_, ?_, ?_⟩
  · intro h
    simp only [nodeTransformation, h]
  · intro na h
    simp only [nodeTransformation, h]
  · intro h
    unfold FindNodeAnim
    rw [List.find?_eq_none]
    intro c hc
    simpa using h c hc
  · intro pre na post hsplit hname hpre
    exact FindNodeAnim_first animation.mChannels pre post na animation.mDuration
      animation.mTicksPerSecond node.mName hsplit hname hpre
  · intro na h hp hr hs ht hq hsc
    simp only [nodeTransformation, h]
    have e1 : InterpolatePosition t (some na) = ⟨0, 0, 0⟩ := by
      simp [InterpolatePosition, hp]
    have e2 : InterpolateRotation lib.Interpolate lib.Normalize t (some na) = ⟨1, 0, 0, 0⟩ := by
      simp [InterpolateRotation, hr]
    have e3 : InterpolateScale t (some na) = ⟨1, 1, 1⟩ := by
      simp [InterpolateScale, hs]
    rw [e1, e2, e3, ht, hq, hsc]
    simp
  · cases node with
    | mk n tr m c => simp only [ReadNodeHierarchy, aiNode.mChildren, aiNode.mName]

theorem fin_four_cases (j : Fin 4) : j = 0 ∨ j = 1 ∨ j = 2 ∨ j = 3 := by
  revert j
  decide

theorem exampleLibrary_translate_zero : exampleLibrary.translate ⟨0, 0, 0⟩ = 1 := by
  ext i j
  fin_cases i <;> fin_cases j <;> rfl

theorem exampleLibrary_mat4_cast_one : exampleLibrary.mat4_cast ⟨1, 0, 0, 0⟩ = 1 := by
  have h : exampleLibrary.mat4_cast ⟨1, 0, 0, 0⟩ = exampleLibrary.scale ⟨1, 1, 1⟩ := by
    simp only [exampleLibrary]
    norm_num
  rw [h]
  ext i j
  fin_cases i <;> fin_cases j <;> rfl

theorem exampleLibrary_scale_one : exampleLibrary.scale ⟨1, 1, 1⟩ = 1 := by
  ext i j
  fin_cases i <;> fin_cases j <;> rfl

/-- Witness for C12: under a clip whose only channel is the key-less channel of
`child`, the node `child` has the identity as local transform and the node
`root`, which has no channel, keeps its bind transform. -/
theorem local_transform_witness :
    nodeTransformation exampleLibrary ⟨10, 0, [emptyChannel]⟩ 5 childNode = 1 ∧
    nodeTransformation exampleLibrary ⟨10, 0, [emptyChannel]⟩ 5 rootNode
      = ConvertMatrixToGLM rootNode.mTransformation :=
  ⟨(local_transform exampleLibrary exampleState ⟨10, 0, [emptyChannel]⟩ 5 childNode 1
      []).2.2.2.2.1 emptyChannel (by simp [FindNodeAnim, emptyChannel, childNode, aiNode.mName])
      rfl rfl rfl
      exampleLibrary_translate_zero exampleLibrary_mat4_cast_one exampleLibrary_scale_one,
    (local_transform exampleLibrary exampleState ⟨10, 0, [emptyChannel]⟩ 5 rootNode 1 []).1
      (by simp [FindNodeAnim, emptyChannel, rootNode, aiNode.mName])⟩

/-! ## Pose evaluation as a run of writes -/

theorem applyWrites_cons (w : Nat × Mat4) (ws : List (Nat × Mat4)) (bt : List Mat4) :
    applyWrites (w :: ws) bt = applyWrites ws (bt.set w.1 w.2) := rfl

theorem applyWrites_append (ws1 ws2 : List (Nat × Mat4)) (bt : List Mat4) :
    applyWrites (ws1 ++ ws2) bt = applyWrites ws2 (applyWrites ws1 bt) := by
  unfold applyWrites
  rw [List.foldl_append]

theorem length_applyWrites (ws : List (Nat × Mat4)) :
    ∀ bt : List Mat4, (applyWrites ws bt).length = bt.length := by
  induction ws with
  | nil => intro bt; rfl
  | cons w ws ih =>
    intro bt
    rw [applyWrites_cons, ih, List.length_set]

/-- Entry `j` after a run of writes: the matrix of the last write to `j` when
there is one and `j` is inside the array, the old entry otherwise. -/
theorem getElem?_applyWrites (ws : List (Nat × Mat4)) :
    ∀ (bt : List Mat4) (j : Nat),
      (applyWrites ws bt)[j]? =
        if j < bt.length then (lastWrite ws j).or bt[j]? else none := by
  induction ws with
  | nil =>
    intro bt j
    simp only [applyWrites, List.foldl_nil, lastWrite, Option.none_or]
    split_ifs with h
    · rfl
    · exact List.getElem?_eq_none (not_lt.mp h)
  | cons w ws ih =>
    intro bt j
    rw [applyWrites_cons, ih, List.length_set]
    by_cases hj : j < bt.length
    · simp only [hj, if_true, lastWrite]
      cases hl : lastWrite ws j with
      | some M => simp
      | none =>
        simp only [Option.none_or]
        by_cases hw : w.1 = j
        · subst hw
          simp [List.getElem?_set_self hj]
        · simp [hw, List.getElem?_set_ne hw]
    · simp only [hj, if_false]

theorem lastWrite_eq_none (ws : List (Nat × Mat4)) (j : Nat) (h : ∀ w ∈ ws, w.1 ≠ j) :
    lastWrite ws j = none := by
  induction ws with
  | nil => rfl
  | cons w ws ih =>
    have hw : w.1 ≠ j := h w (List.mem_cons_self _ _)
    simp only [lastWrite, ih (fun x hx => h x (List.mem_cons_of_mem _ hx)), hw, if_false,
      Option.none_or]

theorem lastWrite_eq_some (ws : List (Nat × Mat4)) (j : Nat) (M : Mat4)
    (hex : ∃ w ∈ ws, w.1 = j) (hall : ∀ w ∈ ws, w.1 = j → w.2 = M) :
    lastWrite ws j = some M := by
  induction ws with
  | nil => obtain ⟨w, hw, _⟩ := hex; simp at hw
  | cons w ws ih =>
    simp only [lastWrite]
    by_cases hrest : ∃ x ∈ ws, x.1 = j
    · rw [ih hrest (fun x hx => hall x (List.mem_cons_of_mem _ hx))]
      rfl
    · have hnone : lastWrite ws j = none :=
        lastWrite_eq_none ws j (fun x hx hxj => hrest ⟨x, hx, hxj⟩)
      obtain ⟨x, hx, hxj⟩ := hex
      rcases List.mem_cons.mp hx with rfl | hx'
      · rw [hnone, if_pos hxj, hall x (List.mem_cons_self _ _) hxj]
        rfl
      · exact absurd ⟨x, hx', hxj⟩ hrest

theorem applyWrites_idem (ws : List (Nat × Mat4)) (bt : List Mat4) :
    applyWrites ws (applyWrites ws bt) = applyWrites ws bt := by
  apply List.ext_getElem?
  intro j
  rw [getElem?_applyWrites ws (applyWrites ws bt) j, length_applyWrites,
    getElem?_applyWrites ws bt j]
  by_cases hj : j < bt.length
  · simp only [hj, if_true]
    cases lastWrite ws j <;> simp
  · simp only [hj, if_false]

theorem writeBone_eq (st : ModelState) (name : String) (g : Mat4) (bt : List Mat4) :
    writeBone st name g bt = applyWrites (boneWrite st name g bt.length) bt := by
  unfold writeBone boneWrite
  cases findBone st.boneInfoMap name with
  | none => rfl
  | some info =>
    simp only
    split_ifs <;> rfl

theorem poseWrites_eq (lib : Library) (st : ModelState) (animation : aiAnimation) (t : ℚ)
    (len : Nat) (node : aiNode) (parent : Mat4) :
    poseWrites lib st animation t len node parent =
      boneWrite st node.mName (parent * nodeTransformation lib animation t node) len
        ++ childrenWrites lib st animation t len node.mChildren
          (parent * nodeTransformation lib animation t node) := by
  cases node with
  | mk n tr m c => simp only [poseWrites, aiNode.mName, aiNode.mChildren]

theorem ReadNodeHierarchy_unfold (lib : Library) (st : ModelState) (animation : aiAnimation)
    (t : ℚ) (node : aiNode) (parent : Mat4) (bt : List Mat4) :
    ReadNodeHierarchy lib st animation t node parent bt =
      ReadNodeChildren lib st animation t node.mChildren
        (parent * nodeTransformation lib animation t node)
        (writeBone st node.mName (parent * nodeTransformation lib animation t node) bt) := by
  cases node with
  | mk n tr m c => simp only [ReadNodeHierarchy, aiNode.mChildren, aiNode.mName]

mutual
/-- The pose array after `ReadNodeHierarchy` is the array before it with the
entries of the traversal written in order. -/
theorem ReadNodeHierarchy_eq (lib : Library) (st : ModelState) (animation : aiAnimation)
    (t : ℚ) : ∀ (node : aiNode) (parent : Mat4) (bt : List Mat4),
      ReadNodeHierarchy lib st animation t node parent bt =
        applyWrites (poseWrites lib st animation t bt.length node parent) bt
  | .mk n tr m children, parent, bt => by
    rw [ReadNodeHierarchy_unfold, poseWrites_eq, applyWrites_append]
    simp only [aiNode.mChildren, aiNode.mName]
    rw [ReadNodeChildren_eq lib st animation t children, writeBone_eq, length_applyWrites]
theorem ReadNodeChildren_eq (lib : Library) (st : ModelState) (animation : aiAnimation)
    (t : ℚ) : ∀ (children : List aiNode) (g : Mat4) (bt : List Mat4),
      ReadNodeChildren lib st animation t children g bt =
        applyWrites (childrenWrites lib st animation t bt.length children g) bt
  | [], g, bt => by simp only [ReadNodeChildren, childrenWrites]; rfl
  | c :: cs, g, bt => by
    simp only [ReadNodeChildren, childrenWrites]
    rw [applyWrites_append, ReadNodeChildren_eq lib st animation t cs,
      ReadNodeHierarchy_eq lib st animation t c, length_applyWrites]
end

theorem length_ReadNodeHierarchy (lib : Library) (st : ModelState) (animation : aiAnimation)
    (t : ℚ) (node : aiNode) (parent : Mat4) (bt : List Mat4) :
    (ReadNodeHierarchy lib st animation t node parent bt).length = bt.length := by
  rw [ReadNodeHierarchy_eq, length_applyWrites]

/-! ## Determinism of pose evaluation (C19) -/

/-- C19: pose evaluation is deterministic and idempotent.  `ReadNodeHierarchy`
is a function of the hierarchy, clip, bone table, clock time, parent transform
and pose array; running it again on the pose array produced by a first run
yields exactly the same array; it keeps the length of the array; and the
entries it writes do not depend on the previous contents: started on two
arrays of equal length, every index either ends with the same entry in both
runs or keeps, in each run, the entry it had. -/
theorem pose_idempotent (lib : Library) (st : ModelState) (animation : aiAnimation) (t : ℚ)
    (node : aiNode) (parent : Mat4) (bt bt' : List Mat4) :
    ReadNodeHierarchy lib st animation t node parent
        (ReadNodeHierarchy lib st animation t node parent bt)
      = ReadNodeHierarchy lib st animation t node parent bt ∧
    (ReadNodeHierarchy lib st animation t node parent bt).length = bt.length ∧
    (bt'.length = bt.length → ∀ j : Nat,
      (ReadNodeHierarchy lib st animation t node parent bt)[j]?
          = (ReadNodeHierarchy lib st animation t node parent bt')[j]? ∨
      ((ReadNodeHierarchy lib st animation t node parent bt)[j]? = bt[j]? ∧
        (ReadNodeHierarchy lib st animation t node parent bt')[j]? = bt'[j]?)) := by
  refine ⟨?_, length_ReadNodeHierarchy lib st animation t node parent bt, ?_⟩
  · rw [ReadNodeHierarchy_eq lib st animation t node parent
      (ReadNodeHierarchy lib st animation t node parent bt),
      length_ReadNodeHierarchy, ReadNodeHierarchy_eq lib st animation t node parent bt,
      applyWrites_idem]
  · intro hlen j
    rw [ReadNodeHierarchy_eq lib st animation t node parent bt,
      ReadNodeHierarchy_eq lib st animation t node parent bt', hlen,
      getElem?_applyWrites, getElem?_applyWrites, hlen]
    by_cases hj : j < bt.length
    · simp only [hj, if_true]
      cases lastWrite (poseWrites lib st animation t bt.length node parent) j with
      | some M => left; rfl
      | none => right; exact ⟨rfl, rfl⟩
    · simp only [hj, if_false]
      left; trivial

/-- Witness for C19: evaluating the example skeleton at `t = 5` from the
all-identity pose and from the all-zero pose, entry 0 either agrees in both
results or is untouched in both. -/
theorem pose_idempotent_witness :
    (ReadNodeHierarchy exampleLibrary exampleState exampleAnimation 5 rootNode 1
        exampleState.boneTransforms)[0]?
      = (ReadNodeHierarchy exampleLibrary exampleState exampleAnimation 5 rootNode 1 zeroPose)[0]? ∨
    ((ReadNodeHierarchy exampleLibrary exampleState exampleAnimation 5 rootNode 1
        exampleState.boneTransforms)[0]? = exampleState.boneTransforms[0]? ∧
      (ReadNodeHierarchy exampleLibrary exampleState exampleAnimation 5 rootNode 1 zeroPose)[0]?
        = zeroPose[0]?) :=
  (pose_idempotent exampleLibrary exampleState exampleAnimation 5 rootNode 1
    exampleState.boneTransforms zeroPose).2.2
    (by simp [zeroPose, exampleState]) 0

/-! ## The writes of a traversal and the paths of the hierarchy -/

theorem pathTransform_cons (lib : Library) (animation : aiAnimation) (t : ℚ) (n : aiNode)
    (path : List aiNode) :
    pathTransform lib animation t (n :: path) =
      nodeTransformation lib animation t n * pathTransform lib animation t path := by
  simp [pathTransform]

theorem pathTransform_single (lib : Library) (animation : aiAnimation) (t : ℚ) (n : aiNode) :
    pathTransform lib animation t [n] = nodeTransformation lib animation t n := by
  simp [pathTransform]

theorem pathFrom_ne_nil (n : aiNode) (path : List aiNode) (h : PathFrom n path) : path ≠ [] := by
  cases h <;> simp

theorem getLast?_cons_of_path (n c : aiNode) (path : List aiNode) (h : PathFrom c path) :
    (n :: path).getLast? = path.getLast? := by
  cases h <;> simp [List.getLast?]

theorem mem_boneWrite (st : ModelState) (name : String) (g : Mat4) (len : Nat) (w : Nat × Mat4)
    (h : w ∈ boneWrite st name g len) :
    ∃ info, findBone st.boneInfoMap name = some info ∧ 0 ≤ info.id ∧ info.id.toNat < len ∧
      w = (info.id.toNat, st.globalInverseTransform * g * info.offset) := by
  unfold boneWrite at h
  cases hf : findBone st.boneInfoMap name with
  | none => rw [hf] at h; simp at h
  | some info =>
    rw [hf] at h
    simp only at h
    split_ifs at h with hc
    · exact ⟨info, rfl, hc.1, hc.2, List.mem_singleton.mp h⟩
    · simp at h

mutual
/-- Every entry a traversal writes is the pose entry of the last node of a
path that starts at the traversed node. -/
theorem writes_are_paths (lib : Library) (st : ModelState) (animation : aiAnimation) (t : ℚ)
    (len : Nat) : ∀ (node : aiNode) (parent : Mat4) (w : Nat × Mat4),
      w ∈ poseWrites lib st animation t len node parent →
      IsWriteOf lib st animation t len node parent w
  | .mk n tr m children, parent, w, hw => by
    rw [poseWrites_eq] at hw
    simp only [aiNode.mName, aiNode.mChildren] at hw
    rcases List.mem_append.mp hw with h | h
    · obtain ⟨info, hf, h0, hlt, rfl⟩ := mem_boneWrite st n _ len w h
      exact ⟨[.mk n tr m children], .mk n tr m children, info, PathFrom.here _, rfl, hf, h0, hlt,
        by rw [pathTransform_single]⟩
    · obtain ⟨c, hc, path, last, info, hp, hl, hf, h0, hlt, rfl⟩ :=
        children_writes_are_paths lib st animation t len children _ w h
      refine ⟨.mk n tr m children :: path, last, info, PathFrom.step _ c path hc hp, ?_, hf, h0,
        hlt, ?_⟩
      · rw [getLast?_cons_of_path _ c path hp, hl]
      · rw [pathTransform_cons, Matrix.mul_assoc parent]
theorem children_writes_are_paths (lib : Library) (st : ModelState) (animation : aiAnimation)
    (t : ℚ) (len : Nat) : ∀ (children : List aiNode) (g : Mat4) (w : Nat × Mat4),
      w ∈ childrenWrites lib st animation t len children g →
      ∃ c ∈ children, IsWriteOf lib st animation t len c g w
  | [], g, w, hw => by simp [childrenWrites] at hw
  | c :: cs, g, w, hw => by
    simp only [childrenWrites] at hw
    rcases List.mem_append.mp hw with h | h
    · exact ⟨c, List.mem_cons_self _ _, writes_are_paths lib st animation t len c g w h⟩
    · obtain ⟨c', hc', hw'⟩ := children_writes_are_paths lib st animation t len cs g w h
      exact ⟨c', List.mem_cons_of_mem _ hc', hw'⟩
end

theorem mem_childrenWrites (lib : Library) (st : ModelState) (animation : aiAnimation) (t : ℚ)
    (len : Nat) (g : Mat4) (w : Nat × Mat4) (c : aiNode) :
    ∀ children : List aiNode, c ∈ children →
      w ∈ poseWrites lib st animation t len c g →
      w ∈ childrenWrites lib st animation t len children g := by
  intro children
  induction children with
  | nil => intro hc; simp at hc
  | cons x xs ih =>
    intro hc hw
    simp only [childrenWrites]
    rcases List.mem_cons.mp hc with rfl | hc'
    · exact List.mem_append_left _ hw
    · exact List.mem_append_right _ (ih hc' hw)

/-- The pose entry of the last node of a path is among the writes of the
traversal. -/
theorem paths_are_writes (lib : Library) (st : ModelState) (animation : aiAnimation) (t : ℚ)
    (len : Nat) (node : aiNode) (path : List aiNode) (hp : PathFrom node path) :
    ∀ (parent : Mat4) (last : aiNode) (info : BoneInfo),
      path.getLast? = some last → findBone st.boneInfoMap last.mName = some info →
      0 ≤ info.id → info.id.toNat < len →
      (info.id.toNat,
          st.globalInverseTransform * (parent * pathTransform lib animation t path) * info.offset)
        ∈ poseWrites lib st animation t len node parent := by
  induction hp with
  | here n =>
    intro parent last info hl hf h0 hlt
    simp only [List.getLast?_singleton, Option.some.injEq] at hl
    subst hl
    rw [poseWrites_eq, pathTransform_single]
    apply List.mem_append_left
    unfold boneWrite
    rw [hf]
    simp only [h0, hlt, and_self, if_true, List.mem_singleton]
  | step n c path hc hpath ih =>
    intro parent last info hl hf h0 hlt
    rw [getLast?_cons_of_path n c path hpath] at hl
    rw [poseWrites_eq, pathTransform_cons, ← Matrix.mul_assoc parent]
    apply List.mem_append_right
    exact mem_childrenWrites lib st animation t len _ _ c n.mChildren hc
      (ih (parent * nodeTransformation lib animation t n) last info hl hf h0 hlt)

theorem denseTable_entry (bs : BoneState) (h : DenseTable bs) (name : String) (info : BoneInfo)
    (hf : findBone bs.boneInfoMap name = some info) :
    ∃ p : Nat, bs.boneInfoMap[p]? = some (name, info) ∧ info.id = (p : Int) ∧
      p < bs.boneInfoMap.length := by
  have hmem := findBone_some_mem _ _ _ hf
  obtain ⟨p, hp⟩ := List.mem_iff_getElem?.mp hmem
  have hid := h.2.1 p (name, info) hp
  obtain ⟨hlt, _⟩ := List.getElem?_eq_some_iff.mp hp
  exact ⟨p, hp, hid, hlt⟩

theorem denseTable_id_range (bs : BoneState) (h : DenseTable bs) (name : String)
    (info : BoneInfo) (hf : findBone bs.boneInfoMap name = some info) :
    0 ≤ info.id ∧ info.id < bs.boneCounter := by
  obtain ⟨p, _, hid, hlt⟩ := denseTable_entry bs h name info hf
  rw [hid, h.1]
  constructor
  · exact Int.natCast_nonneg p
  · exact_mod_cast hlt

theorem denseTable_inj (bs : BoneState) (h : DenseTable bs) (n1 n2 : String) (i1 i2 : BoneInfo)
    (h1 : findBone bs.boneInfoMap n1 = some i1) (h2 : findBone bs.boneInfoMap n2 = some i2)
    (hid : i1.id = i2.id) : n1 = n2 ∧ i1 = i2 := by
  obtain ⟨p1, hp1, e1, _⟩ := denseTable_entry bs h n1 i1 h1
  obtain ⟨p2, hp2, e2, _⟩ := denseTable_entry bs h n2 i2 h2
  have hp : p1 = p2 := by
    have : (p1 : Int) = (p2 : Int) := by rw [← e1, ← e2, hid]
    exact_mod_cast this
  subst hp
  rw [hp1] at hp2
  simp only [Option.some.injEq, Prod.mk.injEq] at hp2
  exact hp2

/-! ## Construction of the model -/

theorem processMesh_fst (bv : aiMesh → List Vertex) (bs : BoneState) (mesh : aiMesh) :
    (processMesh bv bs mesh).1 = registerAll bs mesh.mBones :=
  ExtractBoneWeightForVertices_fst bs (bv mesh) mesh

theorem denseTable_foldl_processMesh (bv : aiMesh → List Vertex) (sc : aiScene)
    (meshes : List Nat) :
    ∀ bs : BoneState, DenseTable bs →
      DenseTable (meshes.foldl
        (fun s i => (processMesh bv s (sc.mMeshes.getD i ⟨[]⟩)).1) bs) := by
  induction meshes with
  | nil => intro bs h; exact h
  | cons i rest ih =>
    intro bs h
    rw [List.foldl_cons]
    apply ih
    rw [processMesh_fst]
    exact denseTable_registerAll _ bs h

mutual
theorem denseTable_processNode (bv : aiMesh → List Vertex) (sc : aiScene) :
    ∀ (node : aiNode) (bs : BoneState), DenseTable bs → DenseTable (processNode bv sc node bs)
  | .mk n tr meshes children, bs, h => by
    simp only [processNode]
    exact denseTable_processChildren bv sc children _
      (denseTable_foldl_processMesh bv sc meshes bs h)
theorem denseTable_processChildren (bv : aiMesh → List Vertex) (sc : aiScene) :
    ∀ (children : List aiNode) (bs : BoneState), DenseTable bs →
      DenseTable (processChildren bv sc children bs)
  | [], bs, h => by simpa only [processChildren] using h
  | c :: cs, bs, h => by
    simp only [processChildren]
    exact denseTable_processChildren bv sc cs _ (denseTable_processNode bv sc c bs h)
end

theorem loadModel_frame (lib : Library) (bv : aiMesh → List Vertex) (scene : Option aiScene)
    (st : ModelState) :
    (loadModel lib bv scene st).boneTransforms = st.boneTransforms ∧
    (loadModel lib bv scene st).animationTime = st.animationTime ∧
    (DenseTable st.toBoneState → DenseTable (loadModel lib bv scene st).toBoneState) := by
  cases scene with
  | none => exact ⟨rfl, rfl, fun h => h⟩
  | some sc =>
    cases hflag : sc.mFlagsIncomplete with
    | true =>
      have e : loadModel lib bv (some sc) st = st := by simp [loadModel, hflag]
      rw [e]
      exact ⟨rfl, rfl, fun h => h⟩
    | false =>
      cases hroot : sc.mRootNode with
      | none =>
        have e : loadModel lib bv (some sc) st = st := by simp [loadModel, hflag, hroot]
        rw [e]
        exact ⟨rfl, rfl, fun h => h⟩
      | some root =>
        have e : loadModel lib bv (some sc) st =
            { st with
              globalInverseTransform := lib.inverse (ConvertMatrixToGLM root.mTransformation)
              toBoneState := processNode bv sc root st.toBoneState } := by
          simp [loadModel, hflag, hroot]
        rw [e]
        exact ⟨rfl, rfl, fun h => denseTable_processNode bv sc root _ h⟩

theorem loadModel_globalInverse (lib : Library) (bv : aiMesh → List Vertex) (sc : aiScene)
    (root : aiNode) (st : ModelState) (hflag : sc.mFlagsIncomplete = false)
    (hroot : sc.mRootNode = some root) :
    (loadModel lib bv (some sc) st).globalInverseTransform
      = lib.inverse (ConvertMatrixToGLM root.mTransformation) := by
  simp [loadModel, hflag, hroot]

theorem foldl_set_replicate (x : Mat4) (m : Nat) :
    ∀ n : Nat, (List.range n).foldl (fun bt i => bt.set i x) (List.replicate m x)
      = List.replicate m x := by
  intro n
  induction n with
  | zero => rfl
  | succ n ih =>
    rw [List.range_succ, List.foldl_append, ih]
    simp only [List.foldl_cons, List.foldl_nil]
    apply List.ext_getElem?
    intro j
    rw [List.getElem?_set]
    by_cases h1 : n = j
    · subst h1
      by_cases h2 : n < m
      · simp [List.getElem?_replicate, h2]
      · simp [List.getElem?_replicate, h2]
    · simp [h1]

theorem Model_eq (lib : Library) (bv : aiMesh → List Vertex) (uninit : Mat4)
    (scene : Option aiScene) :
    Model lib bv uninit scene =
      { loadModel lib bv scene ⟨BoneState.initial, uninit, [], 0⟩ with
        boneTransforms :=
          (List.range 100).foldl (fun bt i => bt.set i 1)
            (resize (loadModel lib bv scene
              ⟨BoneState.initial, uninit, [], 0⟩).boneTransforms 100 1) } := by
  unfold Model
  rfl

theorem Model_members (lib : Library) (bv : aiMesh → List Vertex) (uninit : Mat4)
    (scene : Option aiScene) :
    (Model lib bv uninit scene).boneTransforms = List.replicate 100 1 ∧
    (Model lib bv uninit scene).animationTime = 0 ∧
    DenseTable (Model lib bv uninit scene).toBoneState ∧
    (Model lib bv uninit scene).globalInverseTransform
      = (loadModel lib bv scene ⟨BoneState.initial, uninit, [], 0⟩).globalInverseTransform := by
  obtain ⟨h1, h2, h3⟩ := loadModel_frame lib bv scene ⟨BoneState.initial, uninit, [], 0⟩
  rw [Model_eq]
  refine ⟨?_, h2, h3 denseTable_initial, rfl⟩
  simp only [h1]
  have : resize ([] : List Mat4) 100 1 = List.replicate 100 1 := by
    simp [resize]
  rw [this, foldl_set_replicate]

/-! ## Pose entries beyond the discovered bones (C13) -/

theorem UpdateAnimation_cases (lib : Library) (scene : Option aiScene) (st s : ModelState)
    (dt : ℚ) (h : UpdateAnimation lib scene st dt = some s) :
    s = st ∨ ∃ (animation : aiAnimation) (t : ℚ) (root : aiNode),
      s = { st with
        animationTime := t
        boneTransforms := ReadNodeHierarchy lib st animation t root 1 st.boneTransforms } := by
  unfold UpdateAnimation at h
  cases scene with
  | none => left; simpa using h.symm
  | some sc =>
    simp only at h
    cases hA : sc.mAnimations with
    | nil => rw [hA] at h; left; simpa using h.symm
    | cons a rest =>
      rw [hA] at h
      cases a with
      | none => left; simpa using h.symm
      | some animation =>
        simp only at h
        cases hR : sc.mRootNode with
        | none => rw [hR] at h; simp at h
        | some root =>
          rw [hR] at h
          right
          exact ⟨animation, _, root, (Option.some.inj h).symm⟩

theorem UpdateAnimation_some (lib : Library) (scene : Option aiScene) (st : ModelState) (dt : ℚ)
    (hroot : ∀ sc, scene = some sc → sc.mRootNode ≠ none) :
    ∃ s, UpdateAnimation lib scene st dt = some s := by
  unfold UpdateAnimation
  cases scene with
  | none => exact ⟨st, rfl⟩
  | some sc =>
    simp only
    cases hA : sc.mAnimations with
    | nil => exact ⟨st, rfl⟩
    | cons a rest =>
      cases a with
      | none => exact ⟨st, rfl⟩
      | some animation =>
        simp only
        cases hR : sc.mRootNode with
        | none => exact absurd hR (hroot sc rfl)
        | some root => exact ⟨_, rfl⟩

/-- Entries at or beyond `boneCounter` are not written by a traversal. -/
theorem ReadNodeHierarchy_beyond (lib : Library) (st : ModelState) (animation : aiAnimation)
    (t : ℚ) (node : aiNode) (parent : Mat4) (bt : List Mat4) (hd : DenseTable st.toBoneState)
    (j : Nat) (hj : st.boneCounter ≤ (j : Int)) :
    (ReadNodeHierarchy lib st animation t node parent bt)[j]? = bt[j]? := by
  rw [ReadNodeHierarchy_eq, getElem?_applyWrites]
  have hnone : lastWrite (poseWrites lib st animation t bt.length node parent) j = none := by
    apply lastWrite_eq_none
    intro w hw hwj
    obtain ⟨path, last, info, _, _, hf, h0, _, rfl⟩ :=
      writes_are_paths lib st animation t bt.length node parent w hw
    have hr := (denseTable_id_range st.toBoneState hd last.mName info hf).2
    simp only at hwj
    have : (info.id.toNat : Int) = info.id := Int.toNat_of_nonneg h0
    omega
  rw [hnone]
  split_ifs with h
  · rfl
  · exact (List.getElem?_eq_none (not_lt.mp h)).symm

theorem UpdateAnimation_frame (lib : Library) (scene : Option aiScene) (st s : ModelState)
    (dt : ℚ) (hd : DenseTable st.toBoneState) (h : UpdateAnimation lib scene st dt = some s) :
    s.toBoneState = st.toBoneState ∧ s.globalInverseTransform = st.globalInverseTransform ∧
    s.boneTransforms.length = st.boneTransforms.length ∧
    ∀ j : Nat, st.boneCounter ≤ (j : Int) → s.boneTransforms[j]? = st.boneTransforms[j]? := by
  rcases UpdateAnimation_cases lib scene st s dt h with rfl | ⟨animation, t, root, rfl⟩
  · exact ⟨rfl, rfl, rfl, fun _ _ => rfl⟩
  · exact ⟨rfl, rfl, length_ReadNodeHierarchy lib st animation t root 1 st.boneTransforms,
      fun j hj => ReadNodeHierarchy_beyond lib st animation t root 1 st.boneTransforms hd j hj⟩

theorem UpdateAnimations_frame (lib : Library) (scene : Option aiScene) (dts : List ℚ) :
    ∀ (st s : ModelState), DenseTable st.toBoneState →
      UpdateAnimations lib scene st dts = some s →
      s.toBoneState = st.toBoneState ∧ s.globalInverseTransform = st.globalInverseTransform ∧
      s.boneTransforms.length = st.boneTransforms.length ∧
      ∀ j : Nat, st.boneCounter ≤ (j : Int) → s.boneTransforms[j]? = st.boneTransforms[j]? := by
  induction dts with
  | nil =>
    intro st s _ h
    simp only [UpdateAnimations, Option.some.injEq] at h
    subst h
    exact ⟨rfl, rfl, rfl, fun _ _ => rfl⟩
  | cons dt rest ih =>
    intro st s hd h
    simp only [UpdateAnimations] at h
    cases hU : UpdateAnimation lib scene st dt with
    | none => rw [hU] at h; simp at h
    | some s1 =>
      rw [hU] at h
      simp only at h
      obtain ⟨a1, a2, a3, a4⟩ := UpdateAnimation_frame lib scene st s1 dt hd hU
      obtain ⟨b1, b2, b3, b4⟩ := ih s1 s (by rw [a1]; exact hd) h
      refine ⟨b1.trans a1, b2.trans a2, b3.trans a3, fun j hj => ?_⟩
      have hc : s1.boneCounter = st.boneCounter := by rw [a1]
      rw [b4 j (by rw [hc]; exact hj), a4 j hj]

theorem UpdateAnimations_some (lib : Library) (scene : Option aiScene)
    (hroot : ∀ sc, scene = some sc → sc.mRootNode ≠ none) (dts : List ℚ) :
    ∀ st : ModelState, ∃ s, UpdateAnimations lib scene st dts = some s := by
  induction dts with
  | nil => intro st; exact ⟨st, rfl⟩
  | cons dt rest ih =>
    intro st
    obtain ⟨s1, h1⟩ := UpdateAnimation_some lib scene st dt hroot
    obtain ⟨s, h⟩ := ih s1
    exact ⟨s, by simp only [UpdateAnimations, h1, h]⟩

/-- C13: the pose output is a 100-entry array that starts as all identity:
the constructor leaves `boneTransforms` as 100 identity matrices; after any
number of `UpdateAnimation` calls its length is still 100, the bone members
are those of construction, and every entry whose index is greater than or
equal to the number of discovered bones (`boneCounter`) is still the identity
matrix.  The calls return whenever the scene has a root node. -/
theorem pose_beyond_bones (lib : Library) (bv : aiMesh → List Vertex) (uninit : Mat4)
    (scene : Option aiScene) (dts : List ℚ) (s : ModelState) :
    (Model lib bv uninit scene).boneTransforms = List.replicate 100 1 ∧
    (UpdateAnimations lib scene (Model lib bv uninit scene) dts = some s →
      s.boneTransforms.length = 100 ∧
      s.toBoneState = (Model lib bv uninit scene).toBoneState ∧
      ∀ j : Nat, (Model lib bv uninit scene).boneCounter ≤ (j : Int) → j < 100 →
        s.boneTransforms[j]? = some 1) ∧
    ((∀ sc, scene = some sc → sc.mRootNode ≠ none) →
      ∃ s', UpdateAnimations lib scene (Model lib bv uninit scene) dts = some s') := by
  obtain ⟨h1, _, h3, _⟩ := Model_members lib bv uninit scene
  refine ⟨h1, ?_, fun hroot => UpdateAnimations_some lib scene hroot dts _⟩
  intro h
  obtain ⟨a1, _, a3, a4⟩ := UpdateAnimations_frame lib scene dts _ s h3 h
  refine ⟨by rw [a3, h1, List.length_replicate], a1, fun j hj hlt => ?_⟩
  rw [a4 j hj, h1, List.getElem?_replicate]
  simp [hlt]

/-- Witness for C13: on the example scene, which has a root node, two frame
updates after construction return members whose pose array has 100 entries,
identity from index `boneCounter` on. -/
theorem pose_beyond_bones_witness :
    ∃ s, UpdateAnimations exampleLibrary (some exampleScene)
        (Model exampleLibrary (fun _ => [vertexUnused]) 0 (some exampleScene)) [12 / 25, 1 / 60]
          = some s ∧
      s.boneTransforms.length = 100 ∧
      ∀ j : Nat,
        (Model exampleLibrary (fun _ => [vertexUnused]) 0 (some exampleScene)).boneCounter
            ≤ (j : Int) → j < 100 →
        s.boneTransforms[j]? = some 1 := by
  obtain ⟨s, hs⟩ := (pose_beyond_bones exampleLibrary (fun _ => [vertexUnused]) 0
    (some exampleScene) [12 / 25, 1 / 60] exampleState).2.2
    (by intro sc h; cases h; simp [exampleScene])
  have h := (pose_beyond_bones exampleLibrary (fun _ => [vertexUnused]) 0
    (some exampleScene) [12 / 25, 1 / 60] s).2.1 hs
  exact ⟨s, hs, h.1, h.2.2⟩

/-! ## Pose entry of a registered bone (C11) -/

theorem nodeNames_eq (node : aiNode) :
    nodeNames node = node.mName :: childrenNames node.mChildren := by
  cases node with
  | mk n tr m c => simp only [nodeNames, aiNode.mName, aiNode.mChildren]

theorem childrenNames_cons (c : aiNode) (cs : List aiNode) :
    childrenNames (c :: cs) = nodeNames c ++ childrenNames cs := by
  simp only [childrenNames]

theorem mem_childrenNames (x : String) (c : aiNode) :
    ∀ children : List aiNode, c ∈ children → x ∈ nodeNames c → x ∈ childrenNames children := by
  intro children
  induction children with
  | nil => intro hc; simp at hc
  | cons y ys ih =>
    intro hc hx
    rw [childrenNames_cons]
    rcases List.mem_cons.mp hc with rfl | hc'
    · exact List.mem_append_left _ hx
    · exact List.mem_append_right _ (ih hc' hx)

theorem nodup_nodeNames_of_mem (c : aiNode) :
    ∀ children : List aiNode, (childrenNames children).Nodup → c ∈ children →
      (nodeNames c).Nodup := by
  intro children
  induction children with
  | nil => intro _ hc; simp at hc
  | cons y ys ih =>
    intro hnd hc
    rw [childrenNames_cons, List.nodup_append] at hnd
    rcases List.mem_cons.mp hc with rfl | hc'
    · exact hnd.1
    · exact ih hnd.2.1 hc'

theorem children_unique (x : String) (c1 c2 : aiNode) :
    ∀ children : List aiNode, (childrenNames children).Nodup →
      c1 ∈ children → c2 ∈ children → x ∈ nodeNames c1 → x ∈ nodeNames c2 → c1 = c2 := by
  intro children
  induction children with
  | nil => intro _ h1; simp at h1
  | cons y ys ih =>
    intro hnd h1 h2 hx1 hx2
    rw [childrenNames_cons, List.nodup_append] at hnd
    obtain ⟨_, hys, hdisj⟩ := hnd
    rcases List.mem_cons.mp h1 with e1 | h1'
    · rcases List.mem_cons.mp h2 with e2 | h2'
      · rw [e1, e2]
      · subst e1
        exact absurd (mem_childrenNames x c2 ys h2' hx2) (fun h => hdisj hx1 h)
    · rcases List.mem_cons.mp h2 with e2 | h2'
      · subst e2
        exact absurd (mem_childrenNames x c1 ys h1' hx1) (fun h => hdisj hx2 h)
      · exact ih hys h1' h2' hx1 hx2

theorem path_last_mem (n : aiNode) (path : List aiNode) (hp : PathFrom n path) :
    ∀ last, path.getLast? = some last → last.mName ∈ nodeNames n := by
  induction hp with
  | here n =>
    intro last hl
    simp only [List.getLast?_singleton, Option.some.injEq] at hl
    subst hl
    rw [nodeNames_eq]
    exact List.mem_cons_self _ _
  | step n c path hc hpath ih =>
    intro last hl
    rw [getLast?_cons_of_path n c path hpath] at hl
    rw [nodeNames_eq]
    exact List.mem_cons_of_mem _ (mem_childrenNames _ c _ hc (ih last hl))

/-- In a hierarchy with unique node names a node name determines the path
from the root to the node. -/
theorem path_unique (n : aiNode) (p1 : List aiNode) (h1 : PathFrom n p1) :
    ∀ (p2 : List aiNode) (l1 l2 : aiNode), PathFrom n p2 → (nodeNames n).Nodup →
      p1.getLast? = some l1 → p2.getLast? = some l2 → l1.mName = l2.mName → p1 = p2 := by
  induction h1 with
  | here n =>
    intro p2 l1 l2 h2 hnd hl1 hl2 hname
    simp only [List.getLast?_singleton, Option.some.injEq] at hl1
    subst hl1
    cases h2 with
    | here => rfl
    | step _ c path hc hp =>
      rw [getLast?_cons_of_path _ c path hp] at hl2
      have hmem := mem_childrenNames _ c _ hc (path_last_mem c path hp l2 hl2)
      rw [nodeNames_eq, List.nodup_cons] at hnd
      rw [← hname] at hmem
      exact absurd hmem hnd.1
  | step n c path hc hp ih =>
    intro p2 l1 l2 h2 hnd hl1 hl2 hname
    rw [getLast?_cons_of_path n c path hp] at hl1
    have hmem1 := path_last_mem c path hp l1 hl1
    rw [nodeNames_eq, List.nodup_cons] at hnd
    cases h2 with
    | here =>
      simp only [List.getLast?_singleton, Option.some.injEq] at hl2
      subst hl2
      have hmem := mem_childrenNames _ c _ hc hmem1
      rw [hname] at hmem
      exact absurd hmem hnd.1
    | step _ c' path' hc' hp' =>
      rw [getLast?_cons_of_path n c' path' hp'] at hl2
      have hmem2 := path_last_mem c' path' hp' l2 hl2
      rw [← hname] at hmem2
      have hcc : c = c' := children_unique _ c c' _ hnd.2 hc hc' hmem1 hmem2
      subst hcc
      rw [ih path' l1 l2 hp' (nodup_nodeNames_of_mem c _ hnd.2 hc) hl1 hl2 hname]

/-- The pose entry of a registered bone after one traversal from the root. -/
theorem ReadNodeHierarchy_entry (lib : Library) (st : ModelState) (animation : aiAnimation)
    (t : ℚ) (root : aiNode) (bt : List Mat4) (path : List aiNode) (last : aiNode)
    (info : BoneInfo) (hd : DenseTable st.toBoneState) (hnd : (nodeNames root).Nodup)
    (hp : PathFrom root path) (hl : path.getLast? = some last)
    (hf : findBone st.boneInfoMap last.mName = some info) (hlt : info.id.toNat < bt.length) :
    (ReadNodeHierarchy lib st animation t root 1 bt)[info.id.toNat]? =
      some (st.globalInverseTransform * pathTransform lib animation t path * info.offset) := by
  have h0 : 0 ≤ info.id := (denseTable_id_range st.toBoneState hd last.mName info hf).1
  rw [ReadNodeHierarchy_eq, getElem?_applyWrites, if_pos hlt]
  have hmem := paths_are_writes lib st animation t bt.length root path hp 1 last info hl hf h0 hlt
  rw [Matrix.one_mul] at hmem
  rw [lastWrite_eq_some _ _ _ ⟨_, hmem, rfl⟩]
  · rfl
  · intro w hw hwj
    obtain ⟨path', last', info', hp', hl', hf', h0', _, rfl⟩ :=
      writes_are_paths lib st animation t bt.length root 1 w hw
    simp only at hwj
    have hid : info'.id = info.id := by
      have e1 : (info'.id.toNat : Int) = info'.id := Int.toNat_of_nonneg h0'
      have e2 : (info.id.toNat : Int) = info.id := Int.toNat_of_nonneg h0
      omega
    obtain ⟨hname, hinfo⟩ := denseTable_inj st.toBoneState hd _ _ _ _ hf' hf hid
    have hpath := path_unique root path' hp' path last' last hp hnd hl' hl hname
    simp only [hpath, hinfo, Matrix.one_mul]

theorem UpdateAnimation_of_clip (lib : Library) (st : ModelState) (dt : ℚ) (sc : aiScene)
    (animation : aiAnimation) (rest : List (Option aiAnimation)) (root : aiNode)
    (ha : sc.mAnimations = some animation :: rest) (hr : sc.mRootNode = some root) :
    UpdateAnimation lib (some sc) st dt =
      some { st with
        animationTime :=
          fmod (st.animationTime + dt *
            (if animation.mTicksPerSecond ≠ 0 then animation.mTicksPerSecond else 25))
            animation.mDuration
        boneTransforms :=
          ReadNodeHierarchy lib st animation
            (fmod (st.animationTime + dt *
              (if animation.mTicksPerSecond ≠ 0 then animation.mTicksPerSecond else 25))
              animation.mDuration) root 1 st.boneTransforms } := by
  simp only [UpdateAnimation, ha, hr]

/-- C11: after evaluating a hierarchy with unique node names at time `t`, for
every node whose name is a registered bone with id below the length of the
pose array (100), `poseOutput[id] = globalInverseTransform * G * offset(name)`,
where `G` is the product, in root-to-node order, of the local transforms of
the nodes on the path from the root to that node (the root's parent transform
being the identity).  In a model built by the constructor from a loadable
scene and advanced by any run of frame updates, `globalInverseTransform` is
the inverse of the root node's bind transform, so a further `UpdateAnimation`
returns with `poseOutput[id] = inverse(rootBind) * G * offset(name)` at the new
clock time. -/
theorem bone_pose (lib : Library) (st : ModelState) (animation : aiAnimation) (t : ℚ)
    (root : aiNode) (bt : List Mat4) (bv : aiMesh → List Vertex) (uninit : Mat4) (sc : aiScene)
    (rest : List (Option aiAnimation)) (dts : List ℚ) (dt : ℚ) (s : ModelState) :
    (DenseTable st.toBoneState → (nodeNames root).Nodup →
      ∀ (path : List aiNode) (last : aiNode) (info : BoneInfo),
        PathFrom root path → path.getLast? = some last →
        findBone st.boneInfoMap last.mName = some info → info.id.toNat < bt.length →
        (ReadNodeHierarchy lib st animation t root 1 bt)[info.id.toNat]? =
          some (st.globalInverseTransform * pathTransform lib animation t path * info.offset)) ∧
    (sc.mFlagsIncomplete = false → sc.mRootNode = some root →
      sc.mAnimations = some animation :: rest → (nodeNames root).Nodup →
      UpdateAnimations lib (some sc) (Model lib bv uninit (some sc)) dts = some s →
      ∃ s', UpdateAnimation lib (some sc) s dt = some s' ∧
        ∀ (path : List aiNode) (last : aiNode) (info : BoneInfo),
          PathFrom root path → path.getLast? = some last →
          findBone s'.boneInfoMap last.mName = some info → info.id < 100 →
          s'.boneTransforms[info.id.toNat]? =
            some (lib.inverse (ConvertMatrixToGLM root.mTransformation)
              * pathTransform lib animation s'.animationTime path * info.offset)) := by
  refine ⟨fun hd hnd path last info hp hl hf hlt =>
    ReadNodeHierarchy_entry lib st animation t root bt path last info hd hnd hp hl hf hlt, ?_⟩
  intro hflag hroot hanim hnd hrun
  obtain ⟨m1, _, m3, m4⟩ := Model_members lib bv uninit (some sc)
  obtain ⟨a1, a2, a3, _⟩ := UpdateAnimations_frame lib (some sc) dts _ s m3 hrun
  have hds : DenseTable s.toBoneState := by rw [a1]; exact m3
  have hlen : s.boneTransforms.length = 100 := by rw [a3, m1, List.length_replicate]
  have hgit : s.globalInverseTransform
      = lib.inverse (ConvertMatrixToGLM root.mTransformation) := by
    rw [a2, m4]
    exact loadModel_globalInverse lib bv sc root _ hflag hroot
  refine ⟨_, UpdateAnimation_of_clip lib s dt sc animation rest root hanim hroot, ?_⟩
  intro path last info hp hl hf h100
  have hf' : findBone s.boneInfoMap last.mName = some info := hf
  have h0 : 0 ≤ info.id := (denseTable_id_range s.toBoneState hds last.mName info hf').1
  have hlt : info.id.toNat < s.boneTransforms.length := by
    rw [hlen]
    omega
  have h := ReadNodeHierarchy_entry lib s animation
    (fmod (s.animationTime + dt *
      (if animation.mTicksPerSecond ≠ 0 then animation.mTicksPerSecond else 25))
      animation.mDuration) root s.boneTransforms path last info hds hnd hp hl hf' hlt
  rw [hgit] at h
  exact h

theorem ConvertMatrixToGLM_identityOffset : ConvertMatrixToGLM identityOffset = 1 := by
  ext i j
  fin_cases i <;> fin_cases j <;> rfl

theorem nodeTransformation_rootNode (t : ℚ) :
    nodeTransformation exampleLibrary exampleAnimation t rootNode = 1 := by
  have h : FindNodeAnim exampleAnimation rootNode.mName = none := by
    simp [FindNodeAnim, exampleAnimation, childChannel, rootNode, aiNode.mName]
  simp only [nodeTransformation, h]
  exact ConvertMatrixToGLM_identityOffset

theorem nodeTransformation_childNode :
    nodeTransformation exampleLibrary exampleAnimation 5 childNode
      = exampleLibrary.translate ⟨0, 5 / 2, 0⟩ := by
  have h : FindNodeAnim exampleAnimation childNode.mName = some childChannel := by
    simp [FindNodeAnim, exampleAnimation, childChannel, childNode, aiNode.mName]
  have e1 : InterpolatePosition 5 (some childChannel) = ⟨0, 5 / 2, 0⟩ := by decide!
  have e2 : InterpolateRotation exampleLibrary.Interpolate exampleLibrary.Normalize 5
      (some childChannel) = ⟨1, 0, 0, 0⟩ := rfl
  have e3 : InterpolateScale 5 (some childChannel) = ⟨1, 1, 1⟩ := rfl
  simp only [nodeTransformation, h]
  rw [e1, e2, e3, exampleLibrary_mat4_cast_one, exampleLibrary_scale_one, mul_one, mul_one]

theorem denseTable_exampleState : DenseTable exampleState.toBoneState := by
  refine ⟨rfl, ?_, ?_⟩
  · intro j e h
    have hj : j < 1 := by
      obtain ⟨hlt, _⟩ := List.getElem?_eq_some_iff.mp h
      simpa [exampleState] using hlt
    have hj0 : j = 0 := by omega
    subst hj0
    simp [exampleState] at h
    rw [← h]
    rfl
  · simp [exampleState]

/-- Witness for C11: in the two-node skeleton `root → child` of the end-to-end
scenario, with `child` registered as bone 0 with identity offset and the
identity as global inverse transform, the pose entry 0 at `t = 5` is the
translation by `(0, 2.5, 0)`. -/
theorem bone_pose_witness :
    (ReadNodeHierarchy exampleLibrary exampleState exampleAnimation 5 rootNode 1
        exampleState.boneTransforms)[0]?
      = some (exampleLibrary.translate ⟨0, 5 / 2, 0⟩) := by
  have h := (bone_pose exampleLibrary exampleState exampleAnimation 5 rootNode
    exampleState.boneTransforms (fun _ => []) 0 exampleScene [] [] 0 exampleState).1
    denseTable_exampleState
    (by simp [nodeNames, childrenNames, rootNode, childNode])
    [rootNode, childNode] childNode ⟨0, 1⟩
    (PathFrom.step rootNode childNode [childNode]
      (by simp [rootNode, aiNode.mChildren]) (PathFrom.here childNode))
    rfl
    (by simp [findBone, exampleState, childNode, aiNode.mName])
    (by simp [exampleState])
  have e : exampleState.globalInverseTransform
      * pathTransform exampleLibrary exampleAnimation 5 [rootNode, childNode]
      * (⟨0, 1⟩ : BoneInfo).offset = exampleLibrary.translate ⟨0, 5 / 2, 0⟩ := by
    rw [pathTransform_cons, pathTransform_single, nodeTransformation_rootNode,
      nodeTransformation_childNode]
    simp [exampleState]
  rw [e] at h
  exact h

/-! ## Sampling at or past the last keyframe (C22) -/

theorem normalizeVertex_BoneIDs (v : Vertex) : (normalizeVertex v).BoneIDs = v.BoneIDs := by
  by_cases h : 0 < totalWeight v
  · rw [normalizeVertex_of_pos v h]
  · rw [normalizeVertex_of_nonpos v h]

theorem assignAll_length (assignments : List (Int × aiVertexWeight)) :
    ∀ vertices : List Vertex, (assignAll vertices assignments).length = vertices.length := by
  induction assignments with
  | nil => intro vertices; rfl
  | cons a rest ih =>
    intro vertices
    rw [assignAll_cons, ih, assignWeight_length]

theorem mem_of_mem_assignmentsTo (i : Nat) (assignments : List (Int × aiVertexWeight))
    (a : Int × aiVertexWeight) (h : a ∈ assignmentsTo i assignments) : a ∈ assignments := by
  unfold assignmentsTo at h
  exact (List.mem_filter.mp h).1

/-- After a run of assignments with non-negative bone ids a vertex that started
with four sentinel slots has a populated prefix of `min 4 count` slots, `count`
being the number of assignments made to it. -/
theorem assignAll_min_prefix (assignments : List (Int × aiVertexWeight))
    (vertices : List Vertex) (i : Nat) (v : Vertex)
    (hnn : ∀ a ∈ assignments, 0 ≤ a.1) (hv : vertices[i]? = some v)
    (hfresh : ∀ k, v.BoneIDs k = -1) :
    ∃ v', (assignAll vertices assignments)[i]? = some v' ∧ ∀ k : Fin 4,
      (k.val < min 4 (assignmentsTo i assignments).length → 0 ≤ v'.BoneIDs k) ∧
      (min 4 (assignmentsTo i assignments).length ≤ k.val → v'.BoneIDs k = -1) := by
  obtain ⟨v', hget, hprop⟩ := assignAll_prefix i assignments vertices v 0 hv
    (fun k hk => absurd hk (Nat.not_lt_zero _))
    (fun k _ => by rw [hfresh k]; decide) hnn
  refine ⟨v', hget, fun k => ?_⟩
  obtain ⟨_, p2, p3⟩ := hprop k
  have hk4 := k.isLt
  constructor
  · intro hk
    have hlt : k.val < (assignmentsTo i assignments).length := by omega
    have hsome : (assignmentsTo i assignments)[k.val - 0]?
        = some ((assignmentsTo i assignments)[k.val]) := by
      rw [Nat.sub_zero]
      exact List.getElem?_eq_getElem hlt
    rw [(p2 _ (Nat.zero_le _) hsome).1]
    exact hnn _ (mem_of_mem_assignmentsTo i _ _ (List.getElem_mem hlt))
  · intro hk
    have hge : 0 + (assignmentsTo i assignments).length ≤ k.val := by omega
    rw [(p3 hge).1, hfresh k]

/-- C23: populated bone slots always form a prefix.  Starting from a vertex
whose four slots all hold the sentinel id `-1`, after any sequence of weight
assignments with non-negative bone ids, in particular after the bone loop
(whose ids come from the counter), and likewise after the normalization pass,
the vertex has `k = min 4 count` such that slots `0..k-1` hold bone ids `>= 0`
and slots `k..3` still hold the sentinel, where `count` is the number of
assignments made to that vertex; the vertex array keeps its length; an
assignment whose vertex id is outside the vertex array changes nothing. -/
theorem populated_prefix (st : BoneState) (vertices : List Vertex) (mesh : aiMesh) (i : Nat)
    (v : Vertex) (boneID : Int) (w : aiVertexWeight) (assignments : List (Int × aiVertexWeight))
    (hst : NonNegIds st) (hv : vertices[i]? = some v) (hfresh : ∀ k, v.BoneIDs k = -1) :
    ((∀ a ∈ assignments, 0 ≤ a.1) →
      ∃ v', (assignAll vertices assignments)[i]? = some v' ∧ ∀ k : Fin 4,
        (k.val < min 4 (assignmentsTo i assignments).length → 0 ≤ v'.BoneIDs k) ∧
        (min 4 (assignmentsTo i assignments).length ≤ k.val → v'.BoneIDs k = -1)) ∧
    (∃ v', (assignPhase st vertices mesh).2[i]? = some v' ∧ ∀ k : Fin 4,
      (k.val < min 4 (assignmentsTo i (boneAssignments st mesh.mBones)).length →
        0 ≤ v'.BoneIDs k) ∧
      (min 4 (assignmentsTo i (boneAssignments st mesh.mBones)).length ≤ k.val →
        v'.BoneIDs k = -1)) ∧
    (∃ v', (ExtractBoneWeightForVertices st vertices mesh).2[i]? = some v' ∧ ∀ k : Fin 4,
      (k.val < min 4 (assignmentsTo i (boneAssignments st mesh.mBones)).length →
        0 ≤ v'.BoneIDs k) ∧
      (min 4 (assignmentsTo i (boneAssignments st mesh.mBones)).length ≤ k.val →
        v'.BoneIDs k = -1)) ∧
    (ExtractBoneWeightForVertices st vertices mesh).2.length = vertices.length ∧
    (vertices.length ≤ w.mVertexId → assignWeight vertices boneID w = vertices) := by
  obtain ⟨v', hget, hprop⟩ := assignAll_min_prefix (boneAssignments st mesh.mBones) vertices i v
    (boneAssignments_nonneg mesh.mBones st hst) hv hfresh
  have hget' : (assignPhase st vertices mesh).2[i]? = some v' := by
    rw [assignPhase_eq]; exact hget
  refine ⟨fun hnn => assignAll_min_prefix assignments vertices i v hnn hv hfresh,
    ⟨v', hget', hprop⟩, ⟨normalizeVertex v', ?_, ?_⟩, ?_,
    fun h => assignWeight_out_of_range vertices boneID w h⟩
  · show ((assignPhase st vertices mesh).2.map normalizeVertex)[i]? = _
    rw [List.getElem?_map, hget']
    rfl
  · intro k
    rw [normalizeVertex_BoneIDs]
    exact hprop k
  · show ((assignPhase st vertices mesh).2.map normalizeVertex).length = _
    rw [List.length_map, assignPhase_eq, assignAll_length]

/-- Witness for C23: of five bones that all weight vertex 0, the vertex ends
with all four slots populated (`min 4 5 = 4`), and an assignment to vertex 7 of
a one-vertex array changes nothing. -/
theorem populated_prefix_witness :
    (∃ v', (ExtractBoneWeightForVertices BoneState.initial [vertexUnused] meshFive).2[0]?
        = some v' ∧ ∀ k : Fin 4, 0 ≤ v'.BoneIDs k) ∧
    assignWeight [vertexUnused] 3 ⟨7, 1 / 2⟩ = [vertexUnused] := by
  have hfresh : ∀ k, vertexUnused.BoneIDs k = -1 := by
    intro k
    fin_cases k <;> rfl
  have h := populated_prefix BoneState.initial [vertexUnused] meshFive 0 vertexUnused 3
    ⟨7, 1 / 2⟩ [] nonNegIds_initial rfl hfresh
  obtain ⟨v', hget, hprop⟩ := h.2.2.1
  rw [boneAssignments_meshFive] at hprop
  refine ⟨⟨v', hget, fun k => (hprop k).1 ?_⟩, h.2.2.2.2 (by simp)⟩
  have := k.isLt
  simp only [List.length_cons, List.length_nil]
  omega

end Model
